import Mathlib

/-!
cleanUpMyPortrait: scratch removal by median-of-nearest-ring replacement.

A shallow embedding of `main.go`.

* A `color.Color` is represented by the four values its `RGBA()` method returns
  (alpha-premultiplied channels, delivered as `uint32`).
* An `image.Image` is its bounding rectangle together with its `At` function.
* Go `int` coordinates are unbounded integers; `uint32` arithmetic is reduced modulo `2 ^ 32`.
* The global `keyColor` is an explicit argument `key`; the value `main` gives it is
  `keyColor img`, the colour `img.At(0, 0)`.
* The only image `main` holds is the one `png.Decode` returns; its bounding rectangle starts
  at `(0, 0)` (`Image.decoded`).
* The output of `corrected` is an `image.RGBA`: `Set` stores the 8-bit conversion of a colour
  (`rgbaModel`).
* `probes` is the trace of the coordinates the loops of `collectRing` hand to `collectColor`.
* `sort.Slice` is an argument `sortSlice`; the library promises only that it permutes the
  slice into an order compatible with `less` (`SliceSortContract`).
* The ring-growth loop of `calculateColor` has no bound in the source, so it carries a fuel
  argument: the result `none` stands for "still searching after `fuel` rings".
-/

namespace CleanUp

/-! ## Data model -/

/-- Colour, as observed through `RGBA()`: red, green, blue and alpha. -/
structure Color where
  r : Nat
  g : Nat
  b : Nat
  a : Nat
deriving DecidableEq, Repr

/-- Image: `Bounds()` as `Min.X, Min.Y, Max.X, Max.Y` and the method `At`. -/
structure Image where
  minX : Int
  minY : Int
  maxX : Int
  maxY : Int
  At : Int → Int → Color

/-- The colour `color.Black` (opaque black, a `Gray16` of value zero). -/
def black : Color := ⟨0, 0, 0, 65535⟩

/-- The zero value `color.RGBA{}` of a freshly allocated `image.RGBA` pixel. -/
def transparent : Color := ⟨0, 0, 0, 0⟩

/-- Membership of `(x, y)` in the bounding rectangle (`image.Point.In`). -/
def Image.inBounds (img : Image) (x y : Int) : Prop :=
  img.minX ≤ x ∧ x < img.maxX ∧ img.minY ≤ y ∧ y < img.maxY

instance (img : Image) (x y : Int) : Decidable (img.inBounds x y) := by
  unfold Image.inBounds
  infer_instance

/-! ## Colour model -/

/-- Source `calcBrightness`: the `uint32` sum of the three colour channels. -/
def calcBrightness (c : Color) : Nat :=
  ((c.r + c.g) % 2 ^ 32 + c.b) % 2 ^ 32

/-- Source `isSameColor`: equality of the three colour channels, alpha ignored. -/
def isSameColor (lhs rhs : Color) : Bool :=
  lhs.r == rhs.r && lhs.g == rhs.g && lhs.b == rhs.b

/-! ## Pixel access -/

/-- Source `getColor`: the colour at `(x, y)` and `true`, or `color.Black` and `false` when
`(x, y)` is outside the bounds. -/
def getColor (img : Image) (x y : Int) : Color × Bool :=
  if x < img.minX ∨ x ≥ img.maxX ∨ y < img.minY ∨ y ≥ img.maxY then
    (black, false)
  else
    (img.At x y, true)

/-- Source `collectColor`: append the colour at `(x, y)` unless the probe is out of bounds or
the colour is the key. -/
def collectColor (img : Image) (key : Color) (x y : Int) (colors : List Color) : List Color :=
  match getColor img x y with
  | (c, ok) => if ok && !isSameColor c key then colors ++ [c] else colors

/-! ## Loops -/

/-- The body of `for i := start; ...; i++` run `n` times from `i`. -/
def forLoop {σ : Type} (body : Int → σ → σ) : Nat → Int → σ → σ
  | 0, _, s => s
  | n + 1, i, s => forLoop body n (i + 1) (body i s)

/-- The loop `for i := lo; i < hi; i++ { body }`, which runs `hi - lo` times when `lo < hi`
and not at all otherwise. -/
def forRange {σ : Type} (lo hi : Int) (body : Int → σ → σ) (s : σ) : σ :=
  forLoop body (hi - lo).toNat lo s

/-- As `forLoop`, for a body that may fail to produce a state. -/
def forLoopM {σ : Type} (body : Int → σ → Option σ) : Nat → Int → σ → Option σ
  | 0, _, s => some s
  | n + 1, i, s =>
    match body i s with
    | none => none
    | some s' => forLoopM body n (i + 1) s'

/-- As `forRange`, for a body that may fail to produce a state. -/
def forRangeM {σ : Type} (lo hi : Int) (body : Int → σ → Option σ) (s : σ) : Option σ :=
  forLoopM body (hi - lo).toNat lo s

/-! ## Neighbourhood collector -/

/-- Source `collectRing`: four loops, over the upper row, the lower row, the left column and
the right column of the ring at distance `ring` from `(x, y)`. -/
def collectRing (img : Image) (key : Color) (x y : Int) (colors : List Color) (ring : Int) :
    List Color :=
  let colors := forRange (x - ring) (x + ring) (fun i cs => collectColor img key i (y - ring) cs) colors
  let colors := forRange (x - ring) (x + ring) (fun i cs => collectColor img key i (y + ring) cs) colors
  let colors := forRange (y - ring + 1) (y + ring - 1) (fun i cs => collectColor img key (x - ring) i cs) colors
  forRange (y - ring + 1) (y + ring - 1) (fun i cs => collectColor img key (x + ring) i cs) colors

/-! ## Replacement selector -/

/-- The loop `for ring := 1; len(colors) == 0; ring++ { collectRing(...) }` of
`calculateColor`, started at `ring` with the container `colors`, allowed `fuel` iterations. -/
def ringLoop (img : Image) (key : Color) (x y : Int) : Nat → Int → List Color → Option (List Color)
  | fuel, ring, colors =>
    if colors.length = 0 then
      match fuel with
      | 0 => none
      | fuel + 1 => ringLoop img key x y fuel (ring + 1) (collectRing img key x y colors ring)
    else
      some colors

/-- The `less` function handed to `sort.Slice`. -/
def less (a b : Color) : Prop := calcBrightness a < calcBrightness b

instance : DecidableRel less := fun a b => by
  unfold less
  infer_instance

/-- What `sort.Slice` guarantees: the result is a rearrangement of the slice in which no later
element is `less` than an earlier one. Nothing is promised about equal-brightness elements. -/
def SliceSortContract (sortSlice : List Color → List Color) : Prop :=
  ∀ l, (sortSlice l).Perm l ∧ (sortSlice l).Pairwise (fun a b => ¬ less b a)

/-- A reference implementation of `sort.Slice` with the brightness comparison: insertion sort. -/
def insertionSortSlice (l : List Color) : List Color :=
  l.insertionSort (fun a b => calcBrightness a ≤ calcBrightness b)

/-- The last two lines of `calculateColor`: sort, then take the element at index `len / 2`.
`none` would be an index out of range. -/
def pickMedian (sortSlice : List Color → List Color) (colors : List Color) : Option Color :=
  let sorted := sortSlice colors
  sorted[sorted.length / 2]?

/-- Source `calculateColor`. -/
def calculateColor (sortSlice : List Color → List Color) (fuel : Nat) (img : Image) (key : Color)
    (x y : Int) : Option Color :=
  match ringLoop img key x y fuel 1 [] with
  | none => none
  | some colors => pickMedian sortSlice colors

/-! ## Repair driver -/

/-- The conversion `color.RGBAModel.Convert` applied by `(*image.RGBA).Set`: every channel is cut
down to its high byte (`uint8(v >> 8)`), which `RGBA()` reports back as `v | v << 8`. -/
def rgbaModel (c : Color) : Color :=
  ⟨c.r / 256 % 256 * 257, c.g / 256 % 256 * 257, c.b / 256 % 256 * 257, c.a / 256 % 256 * 257⟩

/-- The image `image.NewRGBA(bounds)`: every pixel is the zero colour. -/
def NewRGBA (minX minY maxX maxY : Int) : Image :=
  ⟨minX, minY, maxX, maxY, fun _ _ => transparent⟩

/-- The method `(*image.RGBA).Set`: nothing outside the bounds, the converted colour inside. -/
def Image.Set (dst : Image) (x y : Int) (c : Color) : Image :=
  if dst.inBounds x y then
    { dst with At := fun i j => if i = x ∧ j = y then rgbaModel c else dst.At i j }
  else
    dst

/-- Two images with the same bounding rectangle. -/
def Image.sameBounds (a b : Image) : Prop :=
  a.minX = b.minX ∧ a.minY = b.minY ∧ a.maxX = b.maxX ∧ a.maxY = b.maxY

/-- The colour that `corrected` hands to `dst.Set` for the pixel `(x, y)`: the input colour, or
the value of `calculateColor` when the input colour is the key. -/
def pixelColor (sortSlice : List Color → List Color) (fuel : Nat) (img : Image) (key : Color)
    (x y : Int) : Option Color :=
  let c := img.At x y
  if isSameColor c key then calculateColor sortSlice fuel img key x y else some c

/-- Source `corrected`: rows outside, columns inside, one `Set` per pixel. -/
def corrected (sortSlice : List Color → List Color) (fuel : Nat) (img : Image) (key : Color) :
    Option Image :=
  forRangeM img.minY img.maxY
    (fun y dst =>
      forRangeM img.minX img.maxX
        (fun x dst =>
          match pixelColor sortSlice fuel img key x y with
          | none => none
          | some c => some (dst.Set x y c))
        dst)
    (NewRGBA img.minX img.minY img.maxX img.maxY)

/-! ## The ring as the specification words it -/

/-- The integers from `lo` to `hi`, both included, in ascending order. -/
def fromTo (lo hi : Int) : List Int :=
  (List.range (hi + 1 - lo).toNat).map (fun (k : Nat) => lo + (k : Int))

/-- The coordinates of the ring in visiting order: top edge, bottom edge, left edge, right
edge, with the ranges the specification gives for each. -/
def ringCoords (x y ring : Int) : List (Int × Int) :=
  (fromTo (x - ring) (x + ring - 1)).map (fun i => (i, y - ring)) ++
  (fromTo (x - ring) (x + ring - 1)).map (fun i => (i, y + ring)) ++
  (fromTo (y - ring + 1) (y + ring - 2)).map (fun j => (x - ring, j)) ++
  (fromTo (y - ring + 1) (y + ring - 2)).map (fun j => (x + ring, j))

/-- What a visited coordinate contributes: its colour when it is in bounds and its colour is
not the key, nothing otherwise. -/
def kept (img : Image) (key : Color) (p : Int × Int) : Option Color :=
  if img.inBounds p.1 p.2 ∧ isSameColor (img.At p.1 p.2) key = false then
    some (img.At p.1 p.2)
  else
    none

/-- The colours of a ring as the specification words them. -/
def ringColors (img : Image) (key : Color) (x y ring : Int) : List Color :=
  (ringCoords x y ring).filterMap (kept img key)

/-- Chebyshev distance between two coordinates. -/
def chebyshev (x y px py : Int) : Nat :=
  max (px - x).natAbs (py - y).natAbs

/-- The largest ring radius at which a probe around an in-bounds pixel can still land in
bounds is below the larger side of the bounding rectangle. -/
def searchBound (img : Image) : Nat :=
  (max (img.maxX - img.minX) (img.maxY - img.minY)).toNat

/-- A colour that an 8-bit `color.RGBA` can hold: every channel is a byte repeated twice. -/
def Color.eightBit (c : Color) : Prop :=
  (c.r % 257 = 0 ∧ c.r ≤ 65535) ∧ (c.g % 257 = 0 ∧ c.g ≤ 65535) ∧
  (c.b % 257 = 0 ∧ c.b ≤ 65535) ∧ (c.a % 257 = 0 ∧ c.a ≤ 65535)

instance (c : Color) : Decidable c.eightBit := by
  unfold Color.eightBit
  infer_instance

/-! ## The key and the probe trace -/

/-- The value `main` stores in the global `keyColor`: `img.At(0, 0)`, the literal
coordinate. -/
def keyColor (img : Image) : Color := img.At 0 0

/-- The test `img.Bounds().Empty()` of `main` (`image.Rectangle.Empty`). -/
def Image.Empty (img : Image) : Prop :=
  img.minX ≥ img.maxX ∨ img.minY ≥ img.maxY

instance (img : Image) : Decidable img.Empty := by
  unfold Image.Empty
  infer_instance

/-- What `png.Decode` guarantees of the image it returns, the only image `main` ever holds:
its bounding rectangle is `image.Rect(0, 0, width, height)`, so it starts at `(0, 0)`. -/
def Image.decoded (img : Image) : Prop :=
  img.minX = 0 ∧ img.minY = 0

instance (img : Image) : Decidable img.decoded := by
  unfold Image.decoded
  infer_instance

/-- Lines 120 to 125 of `main`: an empty image ends the run before a key is chosen, otherwise
the global `keyColor` receives `img.At(0, 0)`. -/
def mainKey (img : Image) : Option Color :=
  if img.Empty then none else some (keyColor img)

/-- The four loops of `collectRing` with the call `collectColor(img, i, j, colors)` replaced by
an arbitrary visit of the coordinate `(i, j)`; `collectRing` is the instance whose visit is
`collectColor`. -/
def ringScan {σ : Type} (visit : Int → Int → σ → σ) (x y : Int) (s : σ) (ring : Int) : σ :=
  let s := forRange (x - ring) (x + ring) (fun i t => visit i (y - ring) t) s
  let s := forRange (x - ring) (x + ring) (fun i t => visit i (y + ring) t) s
  let s := forRange (y - ring + 1) (y + ring - 1) (fun i t => visit (x - ring) i t) s
  forRange (y - ring + 1) (y + ring - 1) (fun i t => visit (x + ring) i t) s

/-- The coordinates `collectRing` hands to `collectColor`, in the order of the calls. -/
def probes (x y ring : Int) : List (Int × Int) :=
  ringScan (fun i j l => l ++ [(i, j)]) x y [] ring

/-! ## Example images -/

/-- An opaque grey of 16-bit level `v`. -/
def grey (v : Nat) : Color := ⟨v, v, v, 65535⟩

/-- An opaque colour of brightness `v` (red channel only). -/
def shade (v : Nat) : Color := ⟨v, 0, 0, 65535⟩

/-- Two pixels side by side: the key grey at `(0, 0)`, another grey at `(1, 0)`. -/
def widePair : Image :=
  ⟨0, 0, 2, 1, fun x _ => if x = 1 then grey 4660 else grey 4626⟩

/-- Two pixels one above the other: the key grey at `(0, 0)`, another grey at `(0, 1)`. -/
def tallPair : Image :=
  ⟨0, 0, 1, 2, fun _ y => if y = 1 then grey 4660 else grey 4626⟩

/-- Three pixels in a column: the key grey at `(0, 0)` and `(0, 1)`, another grey at
`(0, 2)`. -/
def tallTriple : Image :=
  ⟨0, 0, 1, 3, fun _ y => if y = 2 then grey 4660 else grey 4626⟩

/-- Two 8-bit pixels one above the other: the key grey at `(0, 0)`, a lighter grey at
`(0, 1)`. -/
def bytePair : Image :=
  ⟨0, 0, 1, 2, fun _ y => if y = 1 then grey 514 else grey 257⟩

/-- A 3 x 3 image with key `shade 0`: brightness rows `0 30 40`, `0 0 0`, `10 20 10`. -/
def patchwork : Image :=
  ⟨0, 0, 3, 3, fun x y =>
    if y = 0 then (if x = 1 then shade 30 else if x = 2 then shade 40 else shade 0)
    else if y = 2 then (if x = 1 then shade 20 else shade 10)
    else shade 0⟩

/-- A 5 x 5 image of 8-bit greys: the key everywhere except at the centre `(2, 2)`. -/
def fiveByFive : Image :=
  ⟨0, 0, 5, 5, fun x y => if x = 2 ∧ y = 2 then grey 514 else grey 257⟩

/-- A single pixel. -/
def onePixel : Image :=
  ⟨0, 0, 1, 1, fun _ _ => grey 257⟩

/-! ## Colour model: theorems -/

/-- C9: `isSameColor a b` holds exactly when the red, green and blue channels are pairwise
equal; replacing either alpha channel does not change the result; the test is symmetric. -/
theorem isSameColor_rgb_only (a b : Color) :
    (isSameColor a b = true ↔ a.r = b.r ∧ a.g = b.g ∧ a.b = b.b) ∧
    (∀ α β : Nat, isSameColor ⟨a.r, a.g, a.b, α⟩ ⟨b.r, b.g, b.b, β⟩ = isSameColor a b) ∧
    isSameColor a b = isSameColor b a := by
  refine ⟨?_, ?_, ?_⟩
  · simp [isSameColor, and_assoc]
  · intro α β
    simp [isSameColor]
  · simp only [isSameColor]
    rw [Bool.eq_iff_iff]
    simp only [Bool.and_eq_true, beq_iff_eq]
    constructor <;> rintro ⟨⟨h1, h2⟩, h3⟩ <;> exact ⟨⟨h1.symm, h2.symm⟩, h3.symm⟩

/-- C10: for a colour whose red, green and blue channels are at most 65535, `calcBrightness`
is the plain sum of the three channels; no partial sum reaches `2 ^ 32`, the result is at most
196605, and replacing the alpha channel does not change it. -/
theorem calcBrightness_exact (c : Color) (hr : c.r ≤ 65535) (hg : c.g ≤ 65535)
    (hb : c.b ≤ 65535) :
    calcBrightness c = c.r + c.g + c.b ∧
    c.r + c.g < 2 ^ 32 ∧ c.r + c.g + c.b < 2 ^ 32 ∧
    calcBrightness c ≤ 196605 ∧
    ∀ α : Nat, calcBrightness ⟨c.r, c.g, c.b, α⟩ = calcBrightness c := by
  have h1 : c.r + c.g < 2 ^ 32 := by norm_num; omega
  have h2 : c.r + c.g + c.b < 2 ^ 32 := by norm_num; omega
  have h3 : calcBrightness c = c.r + c.g + c.b := by
    unfold calcBrightness
    rw [Nat.mod_eq_of_lt h1, Nat.mod_eq_of_lt h2]
  refine ⟨h3, h1, h2, ?_, ?_⟩
  · rw [h3]; omega
  · intro α
    rfl

/-- C10 at the brightest colour: all three channels at 65535 give 196605, whatever the
alpha. -/
theorem calcBrightness_exact_witness :
    calcBrightness ⟨65535, 65535, 65535, 7⟩ = 65535 + 65535 + 65535 ∧
    calcBrightness ⟨65535, 65535, 65535, 7⟩ ≤ 196605 :=
  have h := calcBrightness_exact ⟨65535, 65535, 65535, 7⟩ (by decide) (by decide) (by decide)
  ⟨h.1, h.2.2.2.1⟩

/-! ## Pixel access: theorems -/

/-- C8: `getColor` reports `ok = false` exactly for a coordinate outside the bounding
rectangle, and with `ok = true` the colour is the stored one. -/
theorem getColor_ok_iff (img : Image) (x y : Int) :
    ((getColor img x y).2 = false ↔
      (x < img.minX ∨ x ≥ img.maxX ∨ y < img.minY ∨ y ≥ img.maxY)) ∧
    ((getColor img x y).2 = true → (getColor img x y).1 = img.At x y) := by
  unfold getColor
  by_cases h : x < img.minX ∨ x ≥ img.maxX ∨ y < img.minY ∨ y ≥ img.maxY
  · simp [h]
  · simp [h]

theorem collectColor_eq (img : Image) (key : Color) (px py : Int) (colors : List Color) :
    collectColor img key px py colors = colors ++ (kept img key (px, py)).toList := by
  unfold collectColor getColor kept Image.inBounds
  by_cases h : px < img.minX ∨ px ≥ img.maxX ∨ py < img.minY ∨ py ≥ img.maxY
  · have h' : ¬ (img.minX ≤ px ∧ px < img.maxX ∧ img.minY ≤ py ∧ py < img.maxY) := by omega
    simp [h, h']
  · have h' : img.minX ≤ px ∧ px < img.maxX ∧ img.minY ≤ py ∧ py < img.maxY := by omega
    cases hs : isSameColor (img.At px py) key <;> simp [h, h', hs]

theorem forLoop_collect (img : Image) (key : Color) (f g : Int → Int) (n : Nat) :
    ∀ (i : Int) (colors : List Color),
      forLoop (fun j cs => collectColor img key (f j) (g j) cs) n i colors =
        colors ++ ((List.range n).map (fun (k : Nat) => i + (k : Int))).filterMap
          (fun j => kept img key (f j, g j)) := by
  induction n with
  | zero => intro i colors; simp [forLoop]
  | succ n ih =>
    intro i colors
    rw [forLoop, ih, collectColor_eq, List.range_succ_eq_map]
    have hmap : (List.map (fun (k : Nat) => i + 1 + (k : Int)) (List.range n)) =
        List.map (fun (k : Nat) => i + (k : Int)) (List.map Nat.succ (List.range n)) := by
      rw [List.map_map]
      apply List.map_congr_left
      intro k _
      simp only [Function.comp, Nat.succ_eq_add_one, Nat.cast_add, Nat.cast_one]
      omega
    rw [hmap, List.map_cons, List.filterMap_cons]
    cases hk : kept img key (f i, g i) <;> simp [hk]

theorem forRange_collect (img : Image) (key : Color) (f g : Int → Int) (lo hi : Int)
    (colors : List Color) :
    forRange lo (hi + 1) (fun j cs => collectColor img key (f j) (g j) cs) colors =
      colors ++ ((fromTo lo hi).map (fun j => (f j, g j))).filterMap (kept img key) := by
  unfold forRange fromTo
  rw [forLoop_collect, List.filterMap_map, List.filterMap_map, List.filterMap_map]
  rfl

theorem collectRing_eq (img : Image) (key : Color) (x y : Int) (colors : List Color)
    (ring : Int) :
    collectRing img key x y colors ring = colors ++ ringColors img key x y ring := by
  unfold collectRing ringColors ringCoords
  have e1 : x + ring = (x + ring - 1) + 1 := by omega
  have e2 : y + ring - 1 = (y + ring - 2) + 1 := by omega
  simp only []
  rw [e1, e2]
  rw [forRange_collect img key (fun j => j) (fun _ => y - ring),
    forRange_collect img key (fun j => j) (fun _ => y + ring),
    forRange_collect img key (fun _ => x - ring) (fun j => j),
    forRange_collect img key (fun _ => x + ring - 1 + 1) (fun j => j)]
  simp only [List.filterMap_append, List.append_assoc]
  have e3 : x + ring - 1 + 1 = x + ring := by omega
  rw [e3]

theorem mem_fromTo (lo hi j : Int) : j ∈ fromTo lo hi ↔ lo ≤ j ∧ j ≤ hi := by
  unfold fromTo
  simp only [List.mem_map, List.mem_range]
  constructor
  · rintro ⟨k, hk, rfl⟩
    omega
  · rintro ⟨h1, h2⟩
    refine ⟨(j - lo).toNat, ?_, ?_⟩ <;> omega

theorem mem_ringCoords (x y ring px py : Int) :
    (px, py) ∈ ringCoords x y ring ↔
      (x - ring ≤ px ∧ px ≤ x + ring - 1 ∧ py = y - ring) ∨
      (x - ring ≤ px ∧ px ≤ x + ring - 1 ∧ py = y + ring) ∨
      (px = x - ring ∧ y - ring + 1 ≤ py ∧ py ≤ y + ring - 2) ∨
      (px = x + ring ∧ y - ring + 1 ≤ py ∧ py ≤ y + ring - 2) := by
  unfold ringCoords
  simp only [List.mem_append, List.mem_map, mem_fromTo, Prod.mk.injEq]
  constructor
  · rintro (((⟨i, hi, rfl, rfl⟩ | ⟨i, hi, rfl, rfl⟩) | ⟨j, hj, rfl, rfl⟩) | ⟨j, hj, rfl, rfl⟩)
    · left; omega
    · right; left; omega
    · right; right; left; omega
    · right; right; right; omega
  · rintro (⟨h1, h2, rfl⟩ | ⟨h1, h2, rfl⟩ | ⟨rfl, h1, h2⟩ | ⟨rfl, h1, h2⟩)
    · exact Or.inl (Or.inl (Or.inl ⟨px, ⟨h1, h2⟩, rfl, rfl⟩))
    · exact Or.inl (Or.inl (Or.inr ⟨px, ⟨h1, h2⟩, rfl, rfl⟩))
    · exact Or.inl (Or.inr ⟨py, ⟨h1, h2⟩, rfl, rfl⟩)
    · exact Or.inr ⟨py, ⟨h1, h2⟩, rfl, rfl⟩

theorem chebyshev_of_mem_ringCoords (x y ring px py : Int) (hring : 1 ≤ ring)
    (hmem : (px, py) ∈ ringCoords x y ring) : chebyshev x y px py = ring.toNat := by
  rw [mem_ringCoords] at hmem
  unfold chebyshev
  rcases hmem with h | h | h | h <;> omega

theorem kept_eq_some (img : Image) (key : Color) (p : Int × Int) (c : Color) :
    kept img key p = some c ↔
      img.inBounds p.1 p.2 ∧ isSameColor (img.At p.1 p.2) key = false ∧ img.At p.1 p.2 = c := by
  unfold kept
  by_cases h : img.inBounds p.1 p.2 ∧ isSameColor (img.At p.1 p.2) key = false
  · simp [h]
  · simp only [h, if_false]
    constructor
    · intro h'; cases h'
    · rintro ⟨h1, h2, _⟩; exact absurd ⟨h1, h2⟩ h

theorem mem_ringColors (img : Image) (key : Color) (x y ring : Int) (c : Color) :
    c ∈ ringColors img key x y ring ↔
      ∃ px py, (px, py) ∈ ringCoords x y ring ∧ img.inBounds px py ∧
        isSameColor (img.At px py) key = false ∧ img.At px py = c := by
  unfold ringColors
  simp only [List.mem_filterMap, kept_eq_some, Prod.exists]

theorem ringLoop_of_ne_nil (img : Image) (key : Color) (x y : Int) (fuel : Nat) (ring : Int)
    (colors : List Color) (h : colors ≠ []) :
    ringLoop img key x y fuel ring colors = some colors := by
  have hl : ¬ colors.length = 0 := by
    intro h0
    exact h (List.length_eq_zero.mp h0)
  cases fuel <;> simp [ringLoop, hl]

theorem ringLoop_succ_nil (img : Image) (key : Color) (x y : Int) (fuel : Nat) (ring : Int) :
    ringLoop img key x y (fuel + 1) ring [] =
      ringLoop img key x y fuel (ring + 1) (ringColors img key x y ring) := by
  rw [ringLoop]
  simp [collectRing_eq]

theorem ringLoop_zero_nil (img : Image) (key : Color) (x y : Int) (ring : Int) :
    ringLoop img key x y 0 ring [] = none := by
  simp [ringLoop]

/-- Soundness of the ring search: a returned container is the first non-empty ring. -/
theorem ringLoop_sound (img : Image) (key : Color) (x y : Int) (fuel : Nat) :
    ∀ (ring : Int) (cs : List Color), ringLoop img key x y fuel ring [] = some cs →
      ∃ k : Nat, k < fuel ∧ (∀ j : Nat, j < k → ringColors img key x y (ring + j) = []) ∧
        ringColors img key x y (ring + k) = cs ∧ cs ≠ [] := by
  induction fuel with
  | zero => intro ring cs h; simp [ringLoop_zero_nil] at h
  | succ fuel ih =>
    intro ring cs h
    rw [ringLoop_succ_nil] at h
    by_cases hne : ringColors img key x y ring = []
    · rw [hne] at h
      obtain ⟨k, hk, hall, hcs, hnil⟩ := ih (ring + 1) cs h
      refine ⟨k + 1, by omega, ?_, ?_, hnil⟩
      · intro j hj
        cases j with
        | zero => simpa using hne
        | succ j =>
          have := hall j (by omega)
          rw [← this]
          congr 1
          push_cast
          omega
      · rw [← hcs]
        congr 1
        push_cast
        omega
    · rw [ringLoop_of_ne_nil _ _ _ _ _ _ _ hne] at h
      refine ⟨0, by omega, ?_, ?_, ?_⟩
      · intro j hj; omega
      · simpa using Option.some.inj h
      · rw [← Option.some.inj h]; exact hne

/-- Completeness of the ring search: with fuel beyond the first non-empty ring, that ring is
returned. -/
theorem ringLoop_complete (img : Image) (key : Color) (x y : Int) (k : Nat) :
    ∀ (fuel : Nat) (ring : Int), k < fuel →
      (∀ j : Nat, j < k → ringColors img key x y (ring + j) = []) →
      ringColors img key x y (ring + k) ≠ [] →
      ringLoop img key x y fuel ring [] = some (ringColors img key x y (ring + k)) := by
  induction k with
  | zero =>
    intro fuel ring hf _ hne
    obtain ⟨f, rfl⟩ : ∃ f, fuel = f + 1 := ⟨fuel - 1, by omega⟩
    rw [ringLoop_succ_nil]
    simp only [Nat.cast_zero, add_zero] at hne ⊢
    exact ringLoop_of_ne_nil _ _ _ _ _ _ _ hne
  | succ k ih =>
    intro fuel ring hf hall hne
    obtain ⟨f, rfl⟩ : ∃ f, fuel = f + 1 := ⟨fuel - 1, by omega⟩
    rw [ringLoop_succ_nil]
    have h0 : ringColors img key x y ring = [] := by simpa using hall 0 (by omega)
    rw [h0]
    have e : ring + ((k + 1 : Nat) : Int) = ring + 1 + (k : Int) := by push_cast; omega
    rw [e] at hne ⊢
    apply ih f (ring + 1) (by omega) _ hne
    intro j hj
    have := hall (j + 1) (by omega)
    rw [← this]
    congr 1
    push_cast
    omega

theorem insertionSortSlice_contract : SliceSortContract insertionSortSlice := by
  intro l
  refine ⟨List.perm_insertionSort _ l, ?_⟩
  have hs : (List.insertionSort (fun a b : Color => calcBrightness a ≤ calcBrightness b) l).Sorted
      (fun a b : Color => calcBrightness a ≤ calcBrightness b) := by
    haveI : IsTotal Color (fun a b : Color => calcBrightness a ≤ calcBrightness b) :=
      ⟨fun a b => Nat.le_total _ _⟩
    haveI : IsTrans Color (fun a b : Color => calcBrightness a ≤ calcBrightness b) :=
      ⟨fun a b c hab hbc => Nat.le_trans hab hbc⟩
    exact List.sorted_insertionSort _ l
  unfold insertionSortSlice
  refine List.Pairwise.imp ?_ hs
  intro a b hab
  unfold less
  omega

/-- Under the contract of `sort.Slice`, the brightness values of the sorted slice are the
ascending sort of the brightness values of the candidates. -/
theorem sorted_brightness_eq (sortSlice : List Color → List Color)
    (hsort : SliceSortContract sortSlice) (colors : List Color) :
    (sortSlice colors).map calcBrightness =
      (colors.map calcBrightness).insertionSort (fun m n : Nat => m ≤ n) := by
  obtain ⟨hperm, hpw⟩ := hsort colors
  apply List.eq_of_perm_of_sorted (r := fun m n : Nat => m ≤ n)
  · exact (hperm.map calcBrightness).trans (List.perm_insertionSort _ _).symm
  · rw [List.Sorted, List.pairwise_map]
    refine List.Pairwise.imp ?_ hpw
    intro a b hab
    unfold less at hab
    omega
  · exact List.sorted_insertionSort _ _

theorem pickMedian_spec (sortSlice : List Color → List Color)
    (hsort : SliceSortContract sortSlice) (colors : List Color) (hne : colors ≠ []) :
    ∃ c, pickMedian sortSlice colors = some c ∧ c ∈ colors ∧
      ((colors.map calcBrightness).insertionSort (fun m n : Nat => m ≤ n))[colors.length / 2]? =
        some (calcBrightness c) := by
  obtain ⟨hperm, _⟩ := hsort colors
  have hlen : (sortSlice colors).length = colors.length := hperm.length_eq
  have hpos : 0 < colors.length := List.length_pos.mpr hne
  have hidx : colors.length / 2 < (sortSlice colors).length := by
    rw [hlen]; exact Nat.div_lt_self hpos (by decide)
  refine ⟨(sortSlice colors)[colors.length / 2], ?_, ?_, ?_⟩
  · unfold pickMedian
    simp only [hlen]
    exact List.getElem?_eq_getElem hidx
  · exact hperm.subset (List.getElem_mem hidx)
  · rw [← sorted_brightness_eq sortSlice hsort colors, List.getElem?_map,
      List.getElem?_eq_getElem hidx]
    rfl

/-! ## Neighbourhood collector: theorems -/

/-- C6: whatever the container holds, `collectRing` leaves it as a prefix and appends the
colours met on the top edge, the bottom edge, the left edge and the right edge, in this order
and with the ranges of `ringCoords`, keeping a coordinate's colour exactly when the coordinate
is in bounds and its colour is not the key. -/
theorem collectRing_appends_ring (img : Image) (key : Color) (x y : Int)
    (colors : List Color) (ring : Int) :
    collectRing img key x y colors ring =
      colors ++ (ringCoords x y ring).filterMap (kept img key) :=
  collectRing_eq img key x y colors ring

/-- C7: the colours `collectRing` adds are the stored colours of the in-bounds ring
coordinates whose colour is not the key, in visiting order; an out-of-bounds probe makes
`getColor` answer `(color.Black, false)` and leaves the container of `collectColor` as it
was, whatever the key is. -/
theorem collectRing_boundary_safe (img : Image) (key : Color) (x y : Int)
    (colors : List Color) (ring : Int) :
    (∃ added : List Color,
      collectRing img key x y colors ring = colors ++ added ∧
      added = (((ringCoords x y ring).filter (fun p => decide (img.inBounds p.1 p.2))).filter
        (fun p => !isSameColor (img.At p.1 p.2) key)).map (fun p => img.At p.1 p.2) ∧
      ∀ c ∈ added, ∃ px py, (px, py) ∈ ringCoords x y ring ∧ img.inBounds px py ∧
        img.At px py = c) ∧
    (∀ (px py : Int) (cs : List Color), ¬ img.inBounds px py →
      getColor img px py = (black, false) ∧ collectColor img key px py cs = cs) := by
  refine ⟨⟨ringColors img key x y ring, collectRing_eq img key x y colors ring, ?_, ?_⟩, ?_⟩
  · unfold ringColors
    generalize ringCoords x y ring = l
    induction l with
    | nil => rfl
    | cons p l ih =>
      rw [List.filterMap_cons, ih]
      by_cases hb : img.inBounds p.1 p.2
      · cases hs : isSameColor (img.At p.1 p.2) key <;>
          simp [List.filter_cons, hb, hs, kept, -List.filter_filter]
      · simp [List.filter_cons, hb, kept, -List.filter_filter]
  · intro c hc
    obtain ⟨px, py, hmem, hb, _, hc'⟩ := (mem_ringColors img key x y ring c).mp hc
    exact ⟨px, py, hmem, hb, hc'⟩
  · intro px py cs hb
    have hk : kept img key (px, py) = none := by
      unfold kept
      simp [hb]
    refine ⟨?_, ?_⟩
    · unfold getColor
      unfold Image.inBounds at hb
      have : px < img.minX ∨ px ≥ img.maxX ∨ py < img.minY ∨ py ≥ img.maxY := by omega
      simp [this]
    · rw [collectColor_eq, hk]
      simp

/-! ## Replacement selector: theorems -/

theorem widePair_rings_empty (ring : Int) :
    ringColors widePair (widePair.At 0 0) 0 0 ring = [] := by
  rw [List.eq_nil_iff_forall_not_mem]
  intro c hc
  obtain ⟨px, py, hmem, hb, _, _⟩ := (mem_ringColors _ _ _ _ _ c).mp hc
  rw [mem_ringCoords] at hmem
  simp only [Image.inBounds, widePair] at hb
  omega

theorem widePair_calculateColor_none (sortSlice : List Color → List Color) (fuel : Nat) :
    calculateColor sortSlice fuel widePair (widePair.At 0 0) 0 0 = none := by
  unfold calculateColor
  cases h : ringLoop widePair (widePair.At 0 0) 0 0 fuel 1 [] with
  | none => rfl
  | some cs =>
    obtain ⟨k, _, _, hcs, hne⟩ := ringLoop_sound _ _ _ _ _ _ _ h
    rw [widePair_rings_empty] at hcs
    exact absurd hcs.symm hne

/-- C3, at its failing input: in the two-pixel image `widePair` with the key taken from
`(0, 0)`, the pixel `(1, 0)` is not the key, yet no ring around the defective pixel `(0, 0)`
collects a colour, so `calculateColor` is still searching after any number of rings. -/
theorem calculateColor_never_returns_widePair :
    (widePair.inBounds 1 0 ∧ isSameColor (widePair.At 1 0) (widePair.At 0 0) = false) ∧
    (widePair.inBounds 0 0 ∧ isSameColor (widePair.At 0 0) (widePair.At 0 0) = true) ∧
    (∀ ring : Int, 1 ≤ ring → collectRing widePair (widePair.At 0 0) 0 0 [] ring = []) ∧
    (∀ (sortSlice : List Color → List Color) (fuel : Nat),
      calculateColor sortSlice fuel widePair (widePair.At 0 0) 0 0 = none) := by
  refine ⟨by decide, by decide, ?_, widePair_calculateColor_none⟩
  intro ring _
  rw [collectRing_eq, widePair_rings_empty]
  rfl

/-- C4: under the contract of `sort.Slice`, a colour returned by `calculateColor` is one of
the `n >= 1` collected candidates and its brightness is the entry at index `n / 2` of the
candidates' brightness values sorted ascending; candidates of brightness 10, 20, 30 in any
order give brightness 20, and 10, 20, 30, 40 give 30. -/
theorem calculateColor_median_law (sortSlice : List Color → List Color)
    (hsort : SliceSortContract sortSlice) :
    (∀ (fuel : Nat) (img : Image) (key : Color) (x y : Int) (c : Color),
      calculateColor sortSlice fuel img key x y = some c →
      ∃ colors : List Color, ringLoop img key x y fuel 1 [] = some colors ∧
        1 ≤ colors.length ∧ c ∈ colors ∧
        ((colors.map calcBrightness).insertionSort (fun m n : Nat => m ≤ n))[colors.length / 2]? =
          some (calcBrightness c)) ∧
    (∀ colors : List Color, (colors.map calcBrightness).Perm [10, 20, 30] →
      ∃ c, pickMedian sortSlice colors = some c ∧ calcBrightness c = 20) ∧
    (∀ colors : List Color, (colors.map calcBrightness).Perm [10, 20, 30, 40] →
      ∃ c, pickMedian sortSlice colors = some c ∧ calcBrightness c = 30) := by
  have hsorted : ∀ (colors : List Color) (l : List Nat), (colors.map calcBrightness).Perm l →
      l.Sorted (fun m n : Nat => m ≤ n) →
      (colors.map calcBrightness).insertionSort (fun m n : Nat => m ≤ n) = l := by
    intro colors l hp hl
    exact List.eq_of_perm_of_sorted ((List.perm_insertionSort _ _).trans hp)
      (List.sorted_insertionSort _ _) hl
  refine ⟨?_, ?_, ?_⟩
  · intro fuel img key x y c h
    unfold calculateColor at h
    cases hloop : ringLoop img key x y fuel 1 [] with
    | none => rw [hloop] at h; cases h
    | some colors =>
      rw [hloop] at h
      change pickMedian sortSlice colors = some c at h
      obtain ⟨_, _, _, _, hne⟩ := ringLoop_sound _ _ _ _ _ _ _ hloop
      obtain ⟨c', hc', hmem, hbr⟩ := pickMedian_spec sortSlice hsort colors hne
      rw [hc'] at h
      cases h
      exact ⟨colors, rfl, List.length_pos.mpr hne, hmem, hbr⟩
  · intro colors hp
    have hne : colors ≠ [] := by
      rintro rfl
      simpa using hp.length_eq
    obtain ⟨c, hc, _, hbr⟩ := pickMedian_spec sortSlice hsort colors hne
    have hlen : colors.length = 3 := by simpa using hp.length_eq
    rw [hsorted colors _ hp (by decide), hlen] at hbr
    exact ⟨c, hc, by simpa using hbr.symm⟩
  · intro colors hp
    have hne : colors ≠ [] := by
      rintro rfl
      simpa using hp.length_eq
    obtain ⟨c, hc, _, hbr⟩ := pickMedian_spec sortSlice hsort colors hne
    have hlen : colors.length = 4 := by simpa using hp.length_eq
    rw [hsorted colors _ hp (by decide), hlen] at hbr
    exact ⟨c, hc, by simpa using hbr.symm⟩

/-- C4 on `patchwork`: around `(1, 1)` the candidates have brightness 30, 10, 20 and the
result has brightness 20; around `(2, 1)` they have brightness 30, 40, 20, 10 and the result
has brightness 30. -/
theorem calculateColor_median_law_witness :
    calculateColor insertionSortSlice 1 patchwork (shade 0) 1 1 = some (shade 20) ∧
    calculateColor insertionSortSlice 1 patchwork (shade 0) 2 1 = some (shade 30) ∧
    (∃ colors : List Color, ringLoop patchwork (shade 0) 2 1 1 1 [] = some colors ∧
      1 ≤ colors.length ∧ shade 30 ∈ colors ∧
      ((colors.map calcBrightness).insertionSort (fun m n : Nat => m ≤ n))[colors.length / 2]? =
        some (calcBrightness (shade 30))) ∧
    (∃ c, pickMedian insertionSortSlice [shade 30, shade 10, shade 20] = some c ∧
      calcBrightness c = 20) ∧
    (∃ c, pickMedian insertionSortSlice [shade 30, shade 40, shade 20, shade 10] = some c ∧
      calcBrightness c = 30) :=
  ⟨by decide, by decide,
    (calculateColor_median_law insertionSortSlice insertionSortSlice_contract).1 1 patchwork
      (shade 0) 2 1 (shade 30) (by decide),
    (calculateColor_median_law insertionSortSlice insertionSortSlice_contract).2.1
      [shade 30, shade 10, shade 20] (by decide),
    (calculateColor_median_law insertionSortSlice insertionSortSlice_contract).2.2
      [shade 30, shade 40, shade 20, shade 10] (by decide)⟩

/-- C5: under the contract of `sort.Slice`, when `calculateColor` returns a colour there is a
least radius `r >= 1` whose ring is non-empty: every ring of radius `1 .. r - 1` collects
nothing, the sorted container is exactly what `collectRing` collects at radius `r`, and the
returned colour is stored at an in-bounds pixel at Chebyshev distance exactly `r` from
`(x, y)` whose colour is not the key. -/
theorem calculateColor_nearest_ring (sortSlice : List Color → List Color)
    (hsort : SliceSortContract sortSlice) (fuel : Nat) (img : Image) (key : Color) (x y : Int)
    (c : Color) (h : calculateColor sortSlice fuel img key x y = some c) :
    ∃ r : Int, 1 ≤ r ∧ r ≤ fuel ∧
      (∀ r' : Int, 1 ≤ r' → r' < r → collectRing img key x y [] r' = []) ∧
      collectRing img key x y [] r ≠ [] ∧
      ringLoop img key x y fuel 1 [] = some (collectRing img key x y [] r) ∧
      pickMedian sortSlice (collectRing img key x y [] r) = some c ∧
      ∃ px py : Int, img.inBounds px py ∧ img.At px py = c ∧
        isSameColor (img.At px py) key = false ∧ chebyshev x y px py = r.toNat := by
  unfold calculateColor at h
  cases hloop : ringLoop img key x y fuel 1 [] with
  | none => rw [hloop] at h; cases h
  | some colors =>
    rw [hloop] at h
    change pickMedian sortSlice colors = some c at h
    obtain ⟨k, hk, hall, hcs, hne⟩ := ringLoop_sound _ _ _ _ _ _ _ hloop
    have hring : collectRing img key x y [] (1 + (k : Int)) = colors := by
      rw [collectRing_eq, hcs]
      rfl
    obtain ⟨c', hc', hmem, _⟩ := pickMedian_spec sortSlice hsort colors hne
    rw [hc'] at h
    cases h
    rw [← hcs] at hmem
    obtain ⟨px, py, hcoord, hb, hs, hat⟩ := (mem_ringColors _ _ _ _ _ _).mp hmem
    refine ⟨1 + (k : Int), by omega, by omega, ?_, ?_, ?_, ?_, px, py, hb, hat, hs, ?_⟩
    · intro r' h1 h2
      have := hall (r' - 1).toNat (by omega)
      have e : (1 : Int) + ((r' - 1).toNat : Int) = r' := by omega
      rw [e] at this
      rw [collectRing_eq, this]
      rfl
    · rw [hring]; exact hne
    · rw [hring]
    · rw [hring]; exact hc'
    · exact chebyshev_of_mem_ringCoords x y _ px py (by omega) hcoord

/-- C5 on the column `tallTriple`: around `(0, 0)` ring 1 is empty and ring 2 reaches the
pixel `(0, 2)`, at Chebyshev distance 2. -/
theorem calculateColor_nearest_ring_witness :
    calculateColor insertionSortSlice 2 tallTriple (grey 4626) 0 0 = some (grey 4660) ∧
    collectRing tallTriple (grey 4626) 0 0 [] 1 = [] ∧
    collectRing tallTriple (grey 4626) 0 0 [] 2 = [grey 4660] ∧
    ∃ r : Int, 1 ≤ r ∧ r ≤ (2 : Nat) ∧
      (∀ r' : Int, 1 ≤ r' → r' < r → collectRing tallTriple (grey 4626) 0 0 [] r' = []) ∧
      collectRing tallTriple (grey 4626) 0 0 [] r ≠ [] ∧
      ringLoop tallTriple (grey 4626) 0 0 2 1 [] =
        some (collectRing tallTriple (grey 4626) 0 0 [] r) ∧
      pickMedian insertionSortSlice (collectRing tallTriple (grey 4626) 0 0 [] r) =
        some (grey 4660) ∧
      ∃ px py : Int, tallTriple.inBounds px py ∧ tallTriple.At px py = grey 4660 ∧
        isSameColor (tallTriple.At px py) (grey 4626) = false ∧
        chebyshev 0 0 px py = r.toNat :=
  ⟨by decide, by decide, by decide,
    calculateColor_nearest_ring insertionSortSlice insertionSortSlice_contract 2 tallTriple
      (grey 4626) 0 0 (grey 4660) (by decide)⟩

/-! ## Repair driver: theorems -/

theorem forLoopM_inv {σ : Type} (body : Int → σ → Option σ) (n : Nat) :
    ∀ (P : Nat → σ → Prop) (i : Int) (s s' : σ), P 0 s →
      (∀ (k : Nat) (t t' : σ), k < n → P k t → body (i + k) t = some t' → P (k + 1) t') →
      forLoopM body n i s = some s' → P n s' := by
  induction n with
  | zero =>
    intro P i s s' h0 _ h
    simp only [forLoopM] at h
    cases h
    exact h0
  | succ n ih =>
    intro P i s s' h0 hstep h
    rw [forLoopM] at h
    cases hb : body i s with
    | none => rw [hb] at h; cases h
    | some t =>
      rw [hb] at h
      change forLoopM body n (i + 1) t = some s' at h
      have h1 : P 1 t := hstep 0 s t (by omega) h0 (by simpa using hb)
      refine ih (fun k u => P (k + 1) u) (i + 1) t s' h1 ?_ h
      intro k u u' hk hP hbody
      refine hstep (k + 1) u u' (by omega) hP ?_
      rw [← hbody]
      congr 1
      push_cast
      omega

theorem forLoopM_total {σ : Type} (body : Int → σ → Option σ) (n : Nat) :
    ∀ (i : Int) (s : σ), (∀ (k : Nat) (t : σ), k < n → ∃ t', body (i + k) t = some t') →
      ∃ s', forLoopM body n i s = some s' := by
  induction n with
  | zero => intro i s _; exact ⟨s, rfl⟩
  | succ n ih =>
    intro i s hstep
    obtain ⟨t, ht⟩ := hstep 0 s (by omega)
    rw [forLoopM]
    simp only [Nat.cast_zero, add_zero] at ht
    rw [ht]
    apply ih (i + 1) t
    intro k u hk
    obtain ⟨u', hu'⟩ := hstep (k + 1) u (by omega)
    refine ⟨u', ?_⟩
    rw [← hu']
    congr 1
    push_cast
    omega

theorem Set_sameBounds (dst : Image) (x y : Int) (c : Color) :
    (dst.Set x y c).sameBounds dst := by
  unfold Image.Set Image.sameBounds
  split <;> simp

theorem Set_At (dst : Image) (x y : Int) (c : Color) (px py : Int) :
    (dst.Set x y c).At px py =
      if dst.inBounds x y ∧ px = x ∧ py = y then rgbaModel c else dst.At px py := by
  unfold Image.Set
  by_cases hb : dst.inBounds x y
  · simp [hb]
  · simp [hb]

/-- One row of `corrected`: the inner loop writes the converted colour of every pixel of row
`y` and touches nothing else. -/
theorem row_sound (sortSlice : List Color → List Color) (fuel : Nat) (img : Image)
    (key : Color) (y : Int) (hy : img.minY ≤ y ∧ y < img.maxY) (dst dst' : Image)
    (hdst : dst.sameBounds img)
    (h : forRangeM img.minX img.maxX
      (fun x d =>
        match pixelColor sortSlice fuel img key x y with
        | none => none
        | some c => some (d.Set x y c)) dst = some dst') :
    dst'.sameBounds img ∧
    (∀ px : Int, img.minX ≤ px → px < img.maxX →
      ∃ c, pixelColor sortSlice fuel img key px y = some c ∧ dst'.At px y = rgbaModel c) ∧
    (∀ px py : Int, ¬ (py = y ∧ img.minX ≤ px ∧ px < img.maxX) →
      dst'.At px py = dst.At px py) := by
  unfold forRangeM at h
  have key' := forLoopM_inv _ (img.maxX - img.minX).toNat
    (fun k t => t.sameBounds img ∧
      (∀ px : Int, img.minX ≤ px → px < img.minX + k →
        ∃ c, pixelColor sortSlice fuel img key px y = some c ∧ t.At px y = rgbaModel c) ∧
      (∀ px py : Int, ¬ (py = y ∧ img.minX ≤ px ∧ px < img.minX + k) →
        t.At px py = dst.At px py))
    img.minX dst dst' ?_ ?_ h
  · obtain ⟨hb, hin, hout⟩ := key'
    refine ⟨hb, ?_, ?_⟩
    · intro px h1 h2
      exact hin px h1 (by omega)
    · intro px py hn
      exact hout px py (by omega)
  · refine ⟨hdst, ?_, ?_⟩
    · intro px h1 h2
      simp only [Nat.cast_zero, add_zero] at h2
      omega
    · intro px py _
      rfl
  · intro k t t' hk ⟨hb, hin, hout⟩ hbody
    cases hp : pixelColor sortSlice fuel img key (img.minX + k) y with
    | none => simp [hp] at hbody
    | some c =>
      simp only [hp, Option.some.injEq] at hbody
      subst hbody
      have htb : t.inBounds (img.minX + k) y := by
        unfold Image.sameBounds at hb
        unfold Image.inBounds
        omega
      refine ⟨?_, ?_, ?_⟩
      · have := Set_sameBounds t (img.minX + k) y c
        unfold Image.sameBounds at this hb ⊢
        omega
      · intro px h1 h2
        rw [Set_At]
        by_cases hpx : px = img.minX + k
        · subst hpx
          exact ⟨c, hp, by simp [htb]⟩
        · obtain ⟨c', hc', hat⟩ := hin px h1 (by push_cast at h2; omega)
          refine ⟨c', hc', ?_⟩
          simp [hpx, hat]
      · intro px py hn
        rw [Set_At]
        have hne : ¬ (t.inBounds (img.minX + k) y ∧ px = img.minX + k ∧ py = y) := by
          rintro ⟨_, rfl, rfl⟩
          apply hn
          push_cast
          omega
        rw [if_neg hne]
        apply hout
        push_cast at hn
        omega

/-- What `corrected` returns: an image with the bounds of the input whose in-bounds pixels
hold the converted `pixelColor` and whose other pixels were never written. -/
theorem corrected_sound (sortSlice : List Color → List Color) (fuel : Nat) (img : Image)
    (key : Color) (out : Image) (h : corrected sortSlice fuel img key = some out) :
    out.sameBounds img ∧
    (∀ px py : Int, img.inBounds px py →
      ∃ c, pixelColor sortSlice fuel img key px py = some c ∧ out.At px py = rgbaModel c) ∧
    (∀ px py : Int, ¬ img.inBounds px py → out.At px py = transparent) := by
  unfold corrected forRangeM at h
  have key' := forLoopM_inv _ (img.maxY - img.minY).toNat
    (fun k t => t.sameBounds img ∧
      (∀ px py : Int, img.minX ≤ px → px < img.maxX → img.minY ≤ py → py < img.minY + k →
        ∃ c, pixelColor sortSlice fuel img key px py = some c ∧ t.At px py = rgbaModel c) ∧
      (∀ px py : Int,
        ¬ (img.minX ≤ px ∧ px < img.maxX ∧ img.minY ≤ py ∧ py < img.minY + k) →
        t.At px py = transparent))
    img.minY (NewRGBA img.minX img.minY img.maxX img.maxY) out ?_ ?_ h
  · obtain ⟨hb, hin, hout⟩ := key'
    refine ⟨hb, ?_, ?_⟩
    · intro px py hp
      unfold Image.inBounds at hp
      exact hin px py hp.1 hp.2.1 hp.2.2.1 (by omega)
    · intro px py hn
      unfold Image.inBounds at hn
      exact hout px py (by omega)
  · refine ⟨⟨rfl, rfl, rfl, rfl⟩, ?_, ?_⟩
    · intro px py _ _ h3 h4
      simp only [Nat.cast_zero, add_zero] at h4
      omega
    · intro px py _
      rfl
  · intro k t t' hk ⟨hb, hin, hout⟩ hbody
    obtain ⟨hb', hrow, hrest⟩ := row_sound sortSlice fuel img key (img.minY + k)
      (by omega) t t' hb hbody
    refine ⟨hb', ?_, ?_⟩
    · intro px py h1 h2 h3 h4
      by_cases hpy : py = img.minY + k
      · subst hpy
        exact hrow px h1 h2
      · rw [hrest px py (by omega)]
        exact hin px py h1 h2 h3 (by push_cast at h4; omega)
    · intro px py hn
      rw [hrest px py (by push_cast at hn; omega)]
      exact hout px py (by push_cast at hn; omega)

/-- When every in-bounds pixel gets a colour, `corrected` returns. -/
theorem corrected_total (sortSlice : List Color → List Color) (fuel : Nat) (img : Image)
    (key : Color)
    (hall : ∀ px py : Int, img.inBounds px py →
      ∃ c, pixelColor sortSlice fuel img key px py = some c) :
    ∃ out, corrected sortSlice fuel img key = some out := by
  unfold corrected forRangeM
  apply forLoopM_total
  intro k t hk
  apply forLoopM_total
  intro j u hj
  obtain ⟨c, hc⟩ := hall (img.minX + j) (img.minY + k) (by unfold Image.inBounds; omega)
  exact ⟨u.Set (img.minX + j) (img.minY + k) c, by simp [hc]⟩

/-- A non-empty ring around an in-bounds pixel has a radius below `searchBound`. -/
theorem ring_lt_searchBound (img : Image) (key : Color) (x y ring : Int)
    (hxy : img.inBounds x y) (hne : ringColors img key x y ring ≠ []) :
    ring < searchBound img := by
  obtain ⟨c, hc⟩ := List.exists_mem_of_ne_nil _ hne
  obtain ⟨px, py, hmem, hb, _, _⟩ := (mem_ringColors _ _ _ _ _ _).mp hc
  rw [mem_ringCoords] at hmem
  unfold Image.inBounds at hxy hb
  unfold searchBound
  rcases hmem with h | h | h | h <;> omega

/-- Termination of the ring search: if some ring of radius at least one around `(x, y)` is
non-empty and the fuel reaches that radius, `calculateColor` returns. -/
theorem calculateColor_returns (sortSlice : List Color → List Color)
    (hsort : SliceSortContract sortSlice) (fuel : Nat) (img : Image) (key : Color) (x y : Int)
    (ring : Int) (hring : 1 ≤ ring) (hfuel : ring ≤ fuel)
    (hne : collectRing img key x y [] ring ≠ []) :
    ∃ c, calculateColor sortSlice fuel img key x y = some c := by
  classical
  have hex : ∃ k : Nat, ringColors img key x y (1 + (k : Int)) ≠ [] := by
    refine ⟨(ring - 1).toNat, ?_⟩
    have e : (1 : Int) + ((ring - 1).toNat : Int) = ring := by omega
    rw [e]
    rw [collectRing_eq] at hne
    simpa using hne
  have hmin : ∀ j : Nat, j < Nat.find hex → ringColors img key x y (1 + (j : Int)) = [] := by
    intro j hj
    have := Nat.find_min hex hj
    simpa using this
  have hle : Nat.find hex ≤ (ring - 1).toNat := by
    apply Nat.find_min'
    have e : (1 : Int) + ((ring - 1).toNat : Int) = ring := by omega
    rw [e]
    rw [collectRing_eq] at hne
    simpa using hne
  have hloop := ringLoop_complete img key x y (Nat.find hex) fuel 1 (by omega) hmin
    (Nat.find_spec hex)
  obtain ⟨c, hc, _, _⟩ := pickMedian_spec sortSlice hsort _ (Nat.find_spec hex)
  refine ⟨c, ?_⟩
  unfold calculateColor
  rw [hloop]
  exact hc

theorem channel_fixed_iff (v : Nat) : v / 256 % 256 * 257 = v ↔ v % 257 = 0 ∧ v ≤ 65535 := by
  constructor
  · intro h
    have hk : v / 256 % 256 < 256 := Nat.mod_lt _ (by decide)
    refine ⟨?_, by omega⟩
    rw [← h]
    exact Nat.mul_mod_left _ _
  · rintro ⟨h1, h2⟩
    obtain ⟨c, rfl⟩ := Nat.dvd_of_mod_eq_zero h1
    have hc : c ≤ 255 := by omega
    have hd : 257 * c / 256 = c := by
      apply Nat.div_eq_of_lt_le <;> omega
    rw [hd, Nat.mod_eq_of_lt (by omega)]
    omega

theorem rgbaModel_eq_self_iff (c : Color) : rgbaModel c = c ↔ c.eightBit := by
  unfold rgbaModel Color.eightBit
  cases c with
  | mk r g b a =>
    simp only [Color.mk.injEq, channel_fixed_iff]

/-- A colour returned by `calculateColor` is never the key. -/
theorem calculateColor_not_key (sortSlice : List Color → List Color)
    (hsort : SliceSortContract sortSlice) (fuel : Nat) (img : Image) (key : Color) (x y : Int)
    (c : Color) (h : calculateColor sortSlice fuel img key x y = some c) :
    isSameColor c key = false := by
  unfold calculateColor at h
  cases hloop : ringLoop img key x y fuel 1 [] with
  | none => rw [hloop] at h; cases h
  | some colors =>
    rw [hloop] at h
    change pickMedian sortSlice colors = some c at h
    obtain ⟨k, _, _, hcs, hne⟩ := ringLoop_sound _ _ _ _ _ _ _ hloop
    obtain ⟨c', hc', hmem, _⟩ := pickMedian_spec sortSlice hsort colors hne
    rw [hc'] at h
    cases h
    rw [← hcs] at hmem
    obtain ⟨px, py, _, _, hs, hat⟩ := (mem_ringColors _ _ _ _ _ _).mp hmem
    rw [← hat]
    exact hs

theorem widePair_corrected_none (sortSlice : List Color → List Color) (fuel : Nat) :
    corrected sortSlice fuel widePair (widePair.At 0 0) = none := by
  cases h : corrected sortSlice fuel widePair (widePair.At 0 0) with
  | none => rfl
  | some out =>
    obtain ⟨_, hin, _⟩ := corrected_sound _ _ _ _ _ h
    obtain ⟨c, hc, _⟩ := hin 0 0 (by decide)
    have hp : pixelColor sortSlice fuel widePair (widePair.At 0 0) 0 0 =
        calculateColor sortSlice fuel widePair (widePair.At 0 0) 0 0 := by
      unfold pixelColor
      simp [isSameColor]
    rw [hp, widePair_calculateColor_none] at hc
    cases hc

/-- C1, as stated, fails on a 16-bit image: in `tallPair` the pixel `(0, 1)` is in bounds and
is not the key, `corrected` returns, and the output colour at `(0, 1)` differs from the input
colour (level 4660 comes back as 4626). -/
theorem corrected_changes_sixteen_bit_pixel :
    tallPair.inBounds 0 1 ∧ isSameColor (tallPair.At 0 1) (tallPair.At 0 0) = false ∧
    ∃ out, corrected insertionSortSlice 1 tallPair (tallPair.At 0 0) = some out ∧
      out.At 0 1 = grey 4626 ∧ tallPair.At 0 1 = grey 4660 ∧ out.At 0 1 ≠ tallPair.At 0 1 := by
  refine ⟨by decide, by decide, ?_⟩
  obtain ⟨out, hout⟩ := Option.isSome_iff_exists.mp
    (show (corrected insertionSortSlice 1 tallPair (tallPair.At 0 0)).isSome = true by decide)
  have hat : (corrected insertionSortSlice 1 tallPair (tallPair.At 0 0)).map
      (fun o => o.At 0 1) = some (grey 4626) := by decide
  rw [hout] at hat
  have hat' : out.At 0 1 = grey 4626 := Option.some.inj hat
  refine ⟨out, hout, hat', by decide, ?_⟩
  rw [hat']
  decide

/-- C1, amended: whenever `corrected` returns, the output colour of an in-bounds pixel whose
input colour is not the key is the 8-bit RGBA conversion of the input colour, and it equals
the input colour on all four channels exactly when the input colour is 8-bit. -/
theorem corrected_converts_clean_pixels (sortSlice : List Color → List Color) (fuel : Nat)
    (img : Image) (key : Color) (out : Image) (x y : Int)
    (h : corrected sortSlice fuel img key = some out) (hb : img.inBounds x y)
    (hc : isSameColor (img.At x y) key = false) :
    out.At x y = rgbaModel (img.At x y) ∧
    (out.At x y = img.At x y ↔ (img.At x y).eightBit) := by
  obtain ⟨_, hin, _⟩ := corrected_sound _ _ _ _ _ h
  obtain ⟨c, hp, hat⟩ := hin x y hb
  have hp' : pixelColor sortSlice fuel img key x y = some (img.At x y) := by
    unfold pixelColor
    simp [hc]
  rw [hp'] at hp
  cases hp
  refine ⟨hat, ?_⟩
  rw [hat]
  exact rgbaModel_eq_self_iff _

/-- C1, amended, on the 8-bit image `bytePair`: `corrected` returns and the pixel `(0, 1)`,
which is not the key, comes out as it went in. -/
theorem corrected_converts_clean_pixels_witness :
    ∃ out, corrected insertionSortSlice 1 bytePair (bytePair.At 0 0) = some out ∧
      out.At 0 1 = rgbaModel (bytePair.At 0 1) ∧ out.At 0 1 = bytePair.At 0 1 := by
  obtain ⟨out, hout⟩ := Option.isSome_iff_exists.mp
    (show (corrected insertionSortSlice 1 bytePair (bytePair.At 0 0)).isSome = true by decide)
  have h := corrected_converts_clean_pixels insertionSortSlice 1 bytePair (bytePair.At 0 0)
    out 0 1 hout (by decide) (by decide)
  exact ⟨out, hout, h.1, h.2.mpr (by decide)⟩

/-- C2, as stated, fails. In the 16-bit image `tallPair` the pixel `(0, 1)` is not the key,
the pixel `(0, 0)` is defective, `corrected` returns, and the colour it leaves at `(0, 0)` is
still the key colour (the replacement of level 4660 is stored as level 4626). In `widePair`
the pixel `(1, 0)` is not the key and `corrected` writes no colour at all for the defective
pixel `(0, 0)`: it never returns. -/
theorem corrected_leaves_key_colour :
    ((tallPair.inBounds 0 1 ∧ isSameColor (tallPair.At 0 1) (tallPair.At 0 0) = false) ∧
     (tallPair.inBounds 0 0 ∧ isSameColor (tallPair.At 0 0) (tallPair.At 0 0) = true) ∧
     ∃ out, corrected insertionSortSlice 1 tallPair (tallPair.At 0 0) = some out ∧
       isSameColor (out.At 0 0) (tallPair.At 0 0) = true) ∧
    ((widePair.inBounds 1 0 ∧ isSameColor (widePair.At 1 0) (widePair.At 0 0) = false) ∧
     (widePair.inBounds 0 0 ∧ isSameColor (widePair.At 0 0) (widePair.At 0 0) = true) ∧
     ∀ (sortSlice : List Color → List Color) (fuel : Nat),
       corrected sortSlice fuel widePair (widePair.At 0 0) = none) := by
  refine ⟨⟨by decide, by decide, ?_⟩, by decide, by decide, widePair_corrected_none⟩
  obtain ⟨out, hout⟩ := Option.isSome_iff_exists.mp
    (show (corrected insertionSortSlice 1 tallPair (tallPair.At 0 0)).isSome = true by decide)
  have hat : (corrected insertionSortSlice 1 tallPair (tallPair.At 0 0)).map
      (fun o => isSameColor (o.At 0 0) (tallPair.At 0 0)) = some true := by decide
  rw [hout] at hat
  exact ⟨out, hout, Option.some.inj hat⟩

/-- C2, amended: under the contract of `sort.Slice`, if around every in-bounds defective pixel
some ring of radius at least one collects a colour, then `corrected` returns (with fuel up to
the larger side of the image), and for every in-bounds defective pixel the colour it hands to
the output is the value of `calculateColor`, which is not the key; the output stores the 8-bit
RGBA conversion of that colour, and the stored colour is not the key either whenever the
replacement colour is 8-bit. -/
theorem corrected_repairs_reachable (sortSlice : List Color → List Color)
    (hsort : SliceSortContract sortSlice) (fuel : Nat) (img : Image) (key : Color)
    (hfuel : searchBound img ≤ fuel)
    (hrings : ∀ x y : Int, img.inBounds x y → isSameColor (img.At x y) key = true →
      ∃ ring : Int, 1 ≤ ring ∧ collectRing img key x y [] ring ≠ []) :
    ∃ out, corrected sortSlice fuel img key = some out ∧
      ∀ x y : Int, img.inBounds x y → isSameColor (img.At x y) key = true →
        ∃ c, calculateColor sortSlice fuel img key x y = some c ∧
          isSameColor c key = false ∧ out.At x y = rgbaModel c ∧
          (c.eightBit → isSameColor (out.At x y) key = false) := by
  have hcalc : ∀ x y : Int, img.inBounds x y → isSameColor (img.At x y) key = true →
      ∃ c, calculateColor sortSlice fuel img key x y = some c := by
    intro x y hb hs
    obtain ⟨ring, h1, hne⟩ := hrings x y hb hs
    have hlt : ring < searchBound img := by
      apply ring_lt_searchBound img key x y ring hb
      rw [collectRing_eq] at hne
      simpa using hne
    exact calculateColor_returns sortSlice hsort fuel img key x y ring h1 (by omega) hne
  obtain ⟨out, hout⟩ := corrected_total sortSlice fuel img key (by
    intro px py hb
    cases hs : isSameColor (img.At px py) key with
    | false => exact ⟨img.At px py, by simp [pixelColor, hs]⟩
    | true =>
      obtain ⟨c, hc⟩ := hcalc px py hb hs
      exact ⟨c, by simp [pixelColor, hs, hc]⟩)
  refine ⟨out, hout, ?_⟩
  intro x y hb hs
  obtain ⟨_, hin, _⟩ := corrected_sound _ _ _ _ _ hout
  obtain ⟨c, hp, hat⟩ := hin x y hb
  have hp' : pixelColor sortSlice fuel img key x y =
      calculateColor sortSlice fuel img key x y := by
    unfold pixelColor
    simp [hs]
  rw [hp'] at hp
  have hnk := calculateColor_not_key sortSlice hsort fuel img key x y c hp
  refine ⟨c, hp, hnk, hat, ?_⟩
  intro h8
  rw [hat, (rgbaModel_eq_self_iff c).mpr h8]
  exact hnk

/-- C2, amended, on the 8-bit image `bytePair`: the only defective pixel `(0, 0)` has a
non-empty ring of radius one, `corrected` returns, and the colour stored at `(0, 0)` is the
lighter grey of `(0, 1)`, not the key. -/
theorem corrected_repairs_reachable_witness :
    ∃ out, corrected insertionSortSlice 2 bytePair (bytePair.At 0 0) = some out ∧
      out.At 0 0 = grey 514 ∧ isSameColor (out.At 0 0) (bytePair.At 0 0) = false := by
  have hrings : ∀ x y : Int, bytePair.inBounds x y →
      isSameColor (bytePair.At x y) (bytePair.At 0 0) = true →
      ∃ ring : Int, 1 ≤ ring ∧ collectRing bytePair (bytePair.At 0 0) x y [] ring ≠ [] := by
    intro x y hb hs
    simp only [Image.inBounds, bytePair] at hb
    have hx : x = 0 := by omega
    subst hx
    have hy : y = 0 := by
      by_contra hne
      have h1 : y = 1 := by omega
      subst h1
      revert hs
      decide
    subst hy
    exact ⟨1, by decide, by decide⟩
  obtain ⟨out, hout, hall⟩ := corrected_repairs_reachable insertionSortSlice
    insertionSortSlice_contract 2 bytePair (bytePair.At 0 0) (by decide) hrings
  obtain ⟨c, hc, _, hat, h8⟩ := hall 0 0 (by decide) (by decide)
  have hc' : c = grey 514 :=
    Option.some.inj (hc.symm.trans (show calculateColor insertionSortSlice 2 bytePair
      (bytePair.At 0 0) 0 0 = some (grey 514) by decide))
  subst hc'
  exact ⟨out, hout, hat.trans (by decide), h8 (by decide)⟩

/-! ## Ring coverage: theorems -/

theorem collectRing_eq_ringScan (img : Image) (key : Color) (x y : Int) (colors : List Color)
    (ring : Int) :
    collectRing img key x y colors ring =
      ringScan (fun i j cs => collectColor img key i j cs) x y colors ring := rfl

theorem forLoop_trace (f g : Int → Int) (n : Nat) :
    ∀ (i : Int) (l : List (Int × Int)),
      forLoop (fun j t => t ++ [(f j, g j)]) n i l =
        l ++ ((List.range n).map (fun (k : Nat) => i + (k : Int))).map
          (fun j => (f j, g j)) := by
  induction n with
  | zero => intro i l; simp [forLoop]
  | succ n ih =>
    intro i l
    rw [forLoop, ih, List.range_succ_eq_map]
    have hmap : (List.map (fun (k : Nat) => i + 1 + (k : Int)) (List.range n)) =
        List.map (fun (k : Nat) => i + (k : Int)) (List.map Nat.succ (List.range n)) := by
      rw [List.map_map]
      apply List.map_congr_left
      intro k _
      simp only [Function.comp, Nat.succ_eq_add_one, Nat.cast_add, Nat.cast_one]
      omega
    rw [hmap]
    simp

theorem forRange_trace (f g : Int → Int) (lo hi : Int) (l : List (Int × Int)) :
    forRange lo (hi + 1) (fun j t => t ++ [(f j, g j)]) l =
      l ++ (fromTo lo hi).map (fun j => (f j, g j)) := by
  unfold forRange fromTo
  rw [forLoop_trace]

/-- The probe trace of the source loops is the coordinate list of the specification. -/
theorem probes_eq_ringCoords (x y ring : Int) : probes x y ring = ringCoords x y ring := by
  unfold probes ringScan ringCoords
  have e1 : x + ring = (x + ring - 1) + 1 := by omega
  have e2 : y + ring - 1 = (y + ring - 2) + 1 := by omega
  simp only []
  rw [e1, e2]
  rw [forRange_trace (fun j => j) (fun _ => y - ring),
    forRange_trace (fun j => j) (fun _ => y + ring),
    forRange_trace (fun _ => x - ring) (fun j => j),
    forRange_trace (fun _ => x + ring - 1 + 1) (fun j => j)]
  have e3 : x + ring - 1 + 1 = x + ring := by omega
  rw [e3]
  simp

theorem length_fromTo (lo hi : Int) : (fromTo lo hi).length = (hi + 1 - lo).toNat := by
  simp [fromTo]

theorem nodup_fromTo (lo hi : Int) : (fromTo lo hi).Nodup := by
  unfold fromTo
  apply List.Nodup.map
  · intro a b hab
    simpa using hab
  · exact List.nodup_range _

theorem nodup_ringCoords (x y ring : Int) (hring : 1 ≤ ring) : (ringCoords x y ring).Nodup := by
  unfold ringCoords
  have hrow : ∀ (lo hi c : Int), ((fromTo lo hi).map (fun i => (i, c))).Nodup := by
    intro lo hi c
    apply List.Nodup.map _ (nodup_fromTo lo hi)
    intro a b hab
    simpa using hab
  have hcol : ∀ (lo hi c : Int), ((fromTo lo hi).map (fun j => (c, j))).Nodup := by
    intro lo hi c
    apply List.Nodup.map _ (nodup_fromTo lo hi)
    intro a b hab
    simpa using hab
  rw [List.nodup_append, List.nodup_append, List.nodup_append]
  refine ⟨⟨⟨hrow _ _ _, hrow _ _ _, ?_⟩, hcol _ _ _, ?_⟩, hcol _ _ _, ?_⟩
  · intro p h1 h2
    simp only [List.mem_map, mem_fromTo] at h1 h2
    obtain ⟨i, _, rfl⟩ := h1
    obtain ⟨j, _, hj⟩ := h2
    simp only [Prod.mk.injEq] at hj
    omega
  · intro p h1 h2
    simp only [List.mem_append, List.mem_map, mem_fromTo] at h1 h2
    obtain ⟨j, hj, hj'⟩ := h2
    rcases h1 with ⟨i, _, rfl⟩ | ⟨i, _, rfl⟩ <;>
      · simp only [Prod.mk.injEq] at hj'
        omega
  · intro p h1 h2
    simp only [List.mem_append, List.mem_map, mem_fromTo] at h1 h2
    obtain ⟨j, hj, hj'⟩ := h2
    rcases h1 with (⟨i, _, rfl⟩ | ⟨i, _, rfl⟩) | ⟨i, _, rfl⟩ <;>
      · simp only [Prod.mk.injEq] at hj'
        omega

theorem length_ringCoords (x y ring : Int) (hring : 1 ≤ ring) :
    ((ringCoords x y ring).length : Int) = 8 * ring - 4 := by
  unfold ringCoords
  simp only [List.length_append, List.length_map, length_fromTo]
  omega

theorem ringColors_eq_map (img : Image) (key : Color) (x y ring : Int) :
    ringColors img key x y ring =
      ((ringCoords x y ring).filter
        (fun p => decide (img.inBounds p.1 p.2) && !isSameColor (img.At p.1 p.2) key)).map
        (fun p => img.At p.1 p.2) := by
  unfold ringColors
  generalize ringCoords x y ring = l
  induction l with
  | nil => rfl
  | cons p l ih =>
    rw [List.filterMap_cons, ih]
    by_cases hb : img.inBounds p.1 p.2
    · cases hs : isSameColor (img.At p.1 p.2) key <;>
        simp [List.filter_cons, hb, hs, kept]
    · simp [List.filter_cons, hb, kept]

/-- C15: `collectRing` hands to `collectColor` exactly the coordinates of `probes`; the
coordinate at offset `(dx, dy)` from the centre is probed at radius `ring` exactly when `ring`
is the Chebyshev length `r` of the offset, the offset is not `(0, 0)` and it is none of
`(r, -r)`, `(r, r)`, `(-r, r - 1)`, `(r, r - 1)`; an offset that is one of these four is probed
at no radius, and so the neighbours `(x - 1, y)`, `(x + 1, y)`, `(x + 1, y - 1)` and
`(x + 1, y + 1)` are never probed. -/
theorem collectRing_ring_coverage (x y dx dy : Int) :
    (∀ (img : Image) (key : Color) (colors : List Color) (ring : Int),
      collectRing img key x y colors ring =
        colors ++ (probes x y ring).filterMap (kept img key)) ∧
    (∀ ring : Int, (x + dx, y + dy) ∈ probes x y ring ↔
      (ring = ((max dx.natAbs dy.natAbs : Nat) : Int) ∧ ¬ (dx = 0 ∧ dy = 0) ∧
        ¬ ((dx = ring ∧ dy = -ring) ∨ (dx = ring ∧ dy = ring) ∨
           (dx = -ring ∧ dy = ring - 1) ∨ (dx = ring ∧ dy = ring - 1)))) ∧
    (∀ r : Int, r = ((max dx.natAbs dy.natAbs : Nat) : Int) →
      ((dx = r ∧ dy = -r) ∨ (dx = r ∧ dy = r) ∨ (dx = -r ∧ dy = r - 1) ∨
        (dx = r ∧ dy = r - 1)) →
      ∀ ring : Int, (x + dx, y + dy) ∉ probes x y ring) ∧
    (∀ ring : Int, (x - 1, y) ∉ probes x y ring ∧ (x + 1, y) ∉ probes x y ring ∧
      (x + 1, y - 1) ∉ probes x y ring ∧ (x + 1, y + 1) ∉ probes x y ring) := by
  refine ⟨?_, ?_, ?_, ?_⟩
  · intro img key colors ring
    rw [probes_eq_ringCoords]
    exact collectRing_eq img key x y colors ring
  · intro ring
    rw [probes_eq_ringCoords, mem_ringCoords]
    omega
  · intro r hr hfour ring
    rw [probes_eq_ringCoords, mem_ringCoords]
    omega
  · intro ring
    simp only [probes_eq_ringCoords, mem_ringCoords]
    omega

/-- C16: at every radius `ring >= 1` `collectRing` probes exactly `8 * ring - 4` coordinates,
no coordinate twice; at radius one these are the four coordinates of the two row loops, the
column loops being empty; the colours `collectRing` collects, and so the candidates
`calculateColor` sorts, are the stored colours of a duplicate-free list of in-bounds
coordinates. -/
theorem collectRing_no_double_counting (x y ring : Int) (hring : 1 ≤ ring) :
    ((probes x y ring).length : Int) = 8 * ring - 4 ∧
    (probes x y ring).Nodup ∧
    probes x y 1 = [(x - 1, y - 1), (x, y - 1), (x - 1, y + 1), (x, y + 1)] ∧
    fromTo (y - 1 + 1) (y + 1 - 2) = [] ∧
    (∀ (img : Image) (key : Color), ∃ coords : List (Int × Int),
      coords.Sublist (probes x y ring) ∧ coords.Nodup ∧
      (∀ p ∈ coords, img.inBounds p.1 p.2) ∧
      collectRing img key x y [] ring = coords.map (fun p => img.At p.1 p.2)) ∧
    (∀ (img : Image) (key : Color) (fuel : Nat) (colors : List Color),
      ringLoop img key x y fuel 1 [] = some colors →
      ∃ coords : List (Int × Int), coords.Nodup ∧ (∀ p ∈ coords, img.inBounds p.1 p.2) ∧
        colors = coords.map (fun p => img.At p.1 p.2)) := by
  have hcoords : ∀ (img : Image) (key : Color) (r : Int), 1 ≤ r →
      ∃ coords : List (Int × Int), coords.Sublist (probes x y r) ∧ coords.Nodup ∧
        (∀ p ∈ coords, img.inBounds p.1 p.2) ∧
        ringColors img key x y r = coords.map (fun p => img.At p.1 p.2) := by
    intro img key r hr
    refine ⟨_, ?_, ?_, ?_, ringColors_eq_map img key x y r⟩
    · rw [probes_eq_ringCoords]
      exact List.filter_sublist _
    · exact (nodup_ringCoords x y r hr).filter _
    · intro p hp
      have := (List.mem_filter.mp hp).2
      simp only [Bool.and_eq_true, decide_eq_true_eq] at this
      exact this.1
  refine ⟨?_, ?_, ?_, ?_, ?_, ?_⟩
  · rw [probes_eq_ringCoords]
    exact length_ringCoords x y ring hring
  · rw [probes_eq_ringCoords]
    exact nodup_ringCoords x y ring hring
  · rw [probes_eq_ringCoords]
    unfold ringCoords fromTo
    have h2 : (x + 1 - 1 + 1 - (x - 1)).toNat = 2 := by omega
    have h0 : (y + 1 - 2 + 1 - (y - 1 + 1)).toNat = 0 := by omega
    rw [h2, h0]
    simp [List.range_succ]
  · unfold fromTo
    have h0 : (y + 1 - 2 + 1 - (y - 1 + 1)).toNat = 0 := by omega
    rw [h0]
    rfl
  · intro img key
    obtain ⟨coords, h1, h2, h3, h4⟩ := hcoords img key ring hring
    refine ⟨coords, h1, h2, h3, ?_⟩
    rw [collectRing_eq, h4]
    rfl
  · intro img key fuel colors h
    obtain ⟨k, _, _, hcs, _⟩ := ringLoop_sound _ _ _ _ _ _ _ h
    obtain ⟨coords, _, h2, h3, h4⟩ := hcoords img key (1 + (k : Int)) (by omega)
    exact ⟨coords, h2, h3, by rw [← hcs, h4]⟩

/-- C16 at radius two around `(5, 7)`: twelve distinct probes. -/
theorem collectRing_no_double_counting_witness :
    ((probes 5 7 2).length : Int) = 8 * 2 - 4 ∧ (probes 5 7 2).Nodup :=
  have h := collectRing_no_double_counting 5 7 2 (by decide)
  ⟨h.1, h.2.1⟩

/-! ## Searches that never stop: theorems -/

theorem calculateColor_none_of_rings_empty (sortSlice : List Color → List Color) (fuel : Nat)
    (img : Image) (key : Color) (x y : Int)
    (h : ∀ ring : Int, 1 ≤ ring → ringColors img key x y ring = []) :
    calculateColor sortSlice fuel img key x y = none := by
  unfold calculateColor
  cases hloop : ringLoop img key x y fuel 1 [] with
  | none => rfl
  | some cs =>
    obtain ⟨k, _, _, hcs, hne⟩ := ringLoop_sound _ _ _ _ _ _ _ hloop
    rw [h _ (by omega)] at hcs
    exact absurd hcs.symm hne

theorem corrected_none_of_stuck (sortSlice : List Color → List Color) (fuel : Nat)
    (img : Image) (key : Color) (x y : Int) (hb : img.inBounds x y)
    (hs : isSameColor (img.At x y) key = true)
    (hnone : calculateColor sortSlice fuel img key x y = none) :
    corrected sortSlice fuel img key = none := by
  cases h : corrected sortSlice fuel img key with
  | none => rfl
  | some out =>
    obtain ⟨_, hin, _⟩ := corrected_sound _ _ _ _ _ h
    obtain ⟨c, hc, _⟩ := hin x y hb
    have hp : pixelColor sortSlice fuel img key x y =
        calculateColor sortSlice fuel img key x y := by
      unfold pixelColor
      simp [hs]
    rw [hp, hnone] at hc
    cases hc

theorem rings_empty_of_all_key (img : Image) (key : Color)
    (hall : ∀ x y : Int, img.inBounds x y → isSameColor (img.At x y) key = true)
    (x y ring : Int) : ringColors img key x y ring = [] := by
  rw [List.eq_nil_iff_forall_not_mem]
  intro c hc
  obtain ⟨px, py, _, hb, hs, _⟩ := (mem_ringColors _ _ _ _ _ c).mp hc
  rw [hall px py hb] at hs
  cases hs

/-- C13: when every pixel of the grid is the key colour, `collectRing` collects nothing around
any centre at any radius, so the ring loop of `calculateColor` is still searching after any
number of rings, and `corrected` never returns on such a grid once it has a pixel. -/
theorem all_key_search_never_stops (img : Image) (key : Color)
    (hall : ∀ x y : Int, img.inBounds x y → isSameColor (img.At x y) key = true) :
    (∀ (x y ring : Int), 1 ≤ ring → collectRing img key x y [] ring = []) ∧
    (∀ (sortSlice : List Color → List Color) (fuel : Nat) (x y : Int),
      ringLoop img key x y fuel 1 [] = none ∧
      calculateColor sortSlice fuel img key x y = none) ∧
    (∀ (sortSlice : List Color → List Color) (fuel : Nat) (x y : Int),
      img.inBounds x y → corrected sortSlice fuel img key = none) := by
  have hrings := rings_empty_of_all_key img key hall
  refine ⟨?_, ?_, ?_⟩
  · intro x y ring _
    rw [collectRing_eq, hrings]
    rfl
  · intro sortSlice fuel x y
    refine ⟨?_, calculateColor_none_of_rings_empty _ _ _ _ _ _ (fun r _ => hrings x y r)⟩
    cases hloop : ringLoop img key x y fuel 1 [] with
    | none => rfl
    | some cs =>
      obtain ⟨k, _, _, hcs, hne⟩ := ringLoop_sound _ _ _ _ _ _ _ hloop
      rw [hrings] at hcs
      exact absurd hcs.symm hne
  · intro sortSlice fuel x y hb
    exact corrected_none_of_stuck _ _ _ _ x y hb (hall x y hb)
      (calculateColor_none_of_rings_empty _ _ _ _ _ _ (fun r _ => hrings x y r))

/-- C13 on the 1 x 1 image `onePixel` with the key taken from its only pixel. -/
theorem all_key_search_never_stops_witness :
    (∀ ring : Int, 1 ≤ ring → collectRing onePixel (keyColor onePixel) 0 0 [] ring = []) ∧
    (∀ fuel : Nat, calculateColor insertionSortSlice fuel onePixel (keyColor onePixel) 0 0 =
      none) ∧
    (∀ fuel : Nat, corrected insertionSortSlice fuel onePixel (keyColor onePixel) = none) :=
  have hall : ∀ x y : Int, onePixel.inBounds x y →
      isSameColor (onePixel.At x y) (keyColor onePixel) = true := fun _ _ _ => rfl
  have h := all_key_search_never_stops onePixel (keyColor onePixel) hall
  ⟨fun ring hr => h.1 0 0 ring hr, fun fuel => (h.2.1 insertionSortSlice fuel 0 0).2,
    fun fuel => h.2.2 insertionSortSlice fuel 0 0 (by decide)⟩

theorem fiveByFive_stuck (x y : Int) (h : ∀ ring : Int, (2, 2) ∉ ringCoords x y ring)
    (ring : Int) : ringColors fiveByFive (keyColor fiveByFive) x y ring = [] := by
  rw [List.eq_nil_iff_forall_not_mem]
  intro c hc
  obtain ⟨px, py, hmem, _, hs, _⟩ := (mem_ringColors _ _ _ _ _ c).mp hc
  have hcentre : px = 2 ∧ py = 2 := by
    by_contra hne
    have : fiveByFive.At px py = grey 257 := by
      unfold fiveByFive
      simp [hne]
    rw [this] at hs
    revert hs
    decide
  rw [hcentre.1, hcentre.2] at hmem
  exact h ring hmem

/-- C12, at its failing inputs: in the 5 x 5 image `fiveByFive` the centre is the only pixel
off the key; around eight of the 24 defective pixels no ring ever collects a colour, so
`calculateColor` is still searching after any number of rings; around the other sixteen it
returns the centre colour. -/
theorem fiveByFive_ring_growth :
    (∀ p ∈ ([(0, 0), (0, 1), (1, 1), (4, 1), (1, 2), (3, 2), (1, 3), (0, 4)] :
        List (Int × Int)),
      fiveByFive.inBounds p.1 p.2 ∧
      isSameColor (fiveByFive.At p.1 p.2) (keyColor fiveByFive) = true ∧
      (∀ ring : Int, 1 ≤ ring →
        collectRing fiveByFive (keyColor fiveByFive) p.1 p.2 [] ring = []) ∧
      ∀ (sortSlice : List Color → List Color) (fuel : Nat),
        calculateColor sortSlice fuel fiveByFive (keyColor fiveByFive) p.1 p.2 = none) ∧
    (∀ p ∈ ([(1, 0), (2, 0), (3, 0), (4, 0), (2, 1), (3, 1), (0, 2), (4, 2), (0, 3), (2, 3),
        (3, 3), (4, 3), (1, 4), (2, 4), (3, 4), (4, 4)] : List (Int × Int)),
      isSameColor (fiveByFive.At p.1 p.2) (keyColor fiveByFive) = true ∧
      calculateColor insertionSortSlice 2 fiveByFive (keyColor fiveByFive) p.1 p.2 =
        some (fiveByFive.At 2 2)) ∧
    isSameColor (fiveByFive.At 2 2) (keyColor fiveByFive) = false := by
  refine ⟨?_, by decide, by decide⟩
  intro p hp
  have hstuck : ∀ ring : Int, (2, 2) ∉ ringCoords p.1 p.2 ring := by
    intro ring
    rw [mem_ringCoords]
    simp only [List.mem_cons, List.mem_singleton, List.not_mem_nil, or_false] at hp
    rcases hp with rfl | rfl | rfl | rfl | rfl | rfl | rfl | rfl <;> simp only [] <;> omega
  have hin : fiveByFive.inBounds p.1 p.2 ∧
      isSameColor (fiveByFive.At p.1 p.2) (keyColor fiveByFive) = true := by
    simp only [List.mem_cons, List.mem_singleton, List.not_mem_nil, or_false] at hp
    rcases hp with rfl | rfl | rfl | rfl | rfl | rfl | rfl | rfl <;> decide
  refine ⟨hin.1, hin.2, ?_, ?_⟩
  · intro ring _
    rw [collectRing_eq, fiveByFive_stuck p.1 p.2 hstuck]
    rfl
  · intro sortSlice fuel
    exact calculateColor_none_of_rings_empty _ _ _ _ _ _
      (fun r _ => fiveByFive_stuck p.1 p.2 hstuck r)

/-! ## The key: theorems -/

/-- The key is read at the literal coordinate `(0, 0)`: it is the colour of the origin pixel
`(minX, minY)` whatever the pixels are exactly when the origin is `(0, 0)`, and then, for a
non-empty grid, `(0, 0)` is in bounds. -/
theorem keyColor_is_literal_origin (minX minY maxX maxY : Int) :
    (∀ f : Int → Int → Color, keyColor ⟨minX, minY, maxX, maxY, f⟩ = f 0 0) ∧
    ((∀ f : Int → Int → Color, keyColor ⟨minX, minY, maxX, maxY, f⟩ = f minX minY) ↔
      (minX = 0 ∧ minY = 0)) ∧
    (minX = 0 → minY = 0 → minX < maxX → minY < maxY →
      ∀ f : Int → Int → Color, (Image.mk minX minY maxX maxY f).inBounds 0 0 ∧
        keyColor ⟨minX, minY, maxX, maxY, f⟩ = f minX minY) := by
  refine ⟨fun _ => rfl, ⟨?_, ?_⟩, ?_⟩
  · intro h
    have h1 := h (fun x y => if x = 0 ∧ y = 0 then black else transparent)
    unfold keyColor at h1
    simp only [and_self, if_true] at h1
    by_contra hne
    rw [if_neg hne] at h1
    revert h1
    decide
  · rintro ⟨rfl, rfl⟩ f
    rfl
  · rintro rfl rfl hx hy f
    exact ⟨⟨le_refl _, hx, le_refl _, hy⟩, rfl⟩

/-- C14: for every non-empty grid `main` can hold, that is a grid delivered by `png.Decode`,
whose bounding rectangle starts at `(0, 0)`, the key `main` stores is the colour of the pixel
at the grid's origin `(minX, minY)`; the origin is in bounds and no in-bounds coordinate lies
before it. -/
theorem keyColor_is_origin_pixel (img : Image) (hdec : img.decoded) (hne : ¬ img.Empty) :
    mainKey img = some (img.At img.minX img.minY) ∧
    keyColor img = img.At img.minX img.minY ∧
    img.inBounds img.minX img.minY ∧
    ∀ x y : Int, img.inBounds x y → img.minX ≤ x ∧ img.minY ≤ y := by
  obtain ⟨hx, hy⟩ := hdec
  have hkey : keyColor img = img.At img.minX img.minY := by
    unfold keyColor
    rw [hx, hy]
  have hne' := hne
  unfold Image.Empty at hne'
  refine ⟨?_, hkey, ?_, ?_⟩
  · unfold mainKey
    rw [if_neg hne, hkey]
  · unfold Image.inBounds
    omega
  · intro x y hxy
    unfold Image.inBounds at hxy
    omega

/-- C14 on `bytePair`, a non-empty grid with the bounds `png.Decode` gives: the key `main`
stores is the grey of the origin pixel `(0, 0)`. -/
theorem keyColor_is_origin_pixel_witness :
    mainKey bytePair = some (grey 257) ∧ bytePair.At bytePair.minX bytePair.minY = grey 257 ∧
    bytePair.inBounds bytePair.minX bytePair.minY :=
  have h := keyColor_is_origin_pixel bytePair (by decide) (by decide)
  ⟨h.1.trans (by decide), by decide, h.2.2.1⟩

/-! ## Determinism of the repair: theorems -/

theorem Image.eq_of_At (a b : Image) (hb : a.sameBounds b)
    (hat : ∀ x y : Int, a.At x y = b.At x y) : a = b := by
  cases a with
  | mk a1 a2 a3 a4 f =>
    cases b with
    | mk b1 b2 b3 b4 g =>
      obtain ⟨h1, h2, h3, h4⟩ := hb
      simp only at h1 h2 h3 h4
      have hf : f = g := funext fun x => funext fun y => hat x y
      subst h1 h2 h3 h4 hf
      rfl

/-- The value of `calculateColor` does not depend on how much fuel the search was given. -/
theorem calculateColor_fuel_irrelevant (sortSlice : List Color → List Color) (fuel fuel' : Nat)
    (img : Image) (key : Color) (x y : Int) (c c' : Color)
    (h : calculateColor sortSlice fuel img key x y = some c)
    (h' : calculateColor sortSlice fuel' img key x y = some c') : c = c' := by
  unfold calculateColor at h h'
  cases hl : ringLoop img key x y fuel 1 [] with
  | none => rw [hl] at h; cases h
  | some cs =>
    cases hl' : ringLoop img key x y fuel' 1 [] with
    | none => rw [hl'] at h'; cases h'
    | some cs' =>
      rw [hl] at h
      rw [hl'] at h'
      change pickMedian sortSlice cs = some c at h
      change pickMedian sortSlice cs' = some c' at h'
      obtain ⟨k, _, hall, hcs, hne⟩ := ringLoop_sound _ _ _ _ _ _ _ hl
      obtain ⟨k', _, hall', hcs', hne'⟩ := ringLoop_sound _ _ _ _ _ _ _ hl'
      have hk : k = k' := by
        rcases Nat.lt_trichotomy k k' with hlt | heq | hgt
        · exact absurd (hcs.symm.trans (hall' k hlt)) hne
        · exact heq
        · exact absurd (hcs'.symm.trans (hall k' hgt)) hne'
      subst hk
      rw [← hcs, hcs'] at h
      rw [h] at h'
      exact Option.some.inj h'

theorem pixelColor_fuel_irrelevant (sortSlice : List Color → List Color) (fuel fuel' : Nat)
    (img : Image) (key : Color) (x y : Int) (c c' : Color)
    (h : pixelColor sortSlice fuel img key x y = some c)
    (h' : pixelColor sortSlice fuel' img key x y = some c') : c = c' := by
  unfold pixelColor at h h'
  cases hs : isSameColor (img.At x y) key with
  | false =>
    simp only [hs, Bool.false_eq_true, if_false, Option.some.injEq] at h h'
    rw [← h, ← h']
  | true =>
    simp only [hs, if_true] at h h'
    exact calculateColor_fuel_irrelevant sortSlice fuel fuel' img key x y c c' h h'

theorem corrected_fuel_irrelevant (sortSlice : List Color → List Color) (fuel fuel' : Nat)
    (img : Image) (key : Color) (out out' : Image)
    (h : corrected sortSlice fuel img key = some out)
    (h' : corrected sortSlice fuel' img key = some out') : out' = out := by
  obtain ⟨hb, hin, hout⟩ := corrected_sound _ _ _ _ _ h
  obtain ⟨hb', hin', hout'⟩ := corrected_sound _ _ _ _ _ h'
  apply Image.eq_of_At
  · unfold Image.sameBounds at hb hb' ⊢
    omega
  · intro x y
    by_cases hxy : img.inBounds x y
    · obtain ⟨c, hc, hat⟩ := hin x y hxy
      obtain ⟨c', hc', hat'⟩ := hin' x y hxy
      rw [hat, hat', pixelColor_fuel_irrelevant sortSlice fuel fuel' img key x y c c' hc hc']
    · rw [hout x y hxy, hout' x y hxy]

/-- C11, as stated, fails on a 16-bit image: in `tallPair` the defective pixel `(0, 0)` is in
bounds, `calculateColor` on the input gives level 4660 for it, `corrected` returns, and the
colour found at `(0, 0)` in the output is level 4626. -/
theorem corrected_stores_converted_replacement :
    tallPair.inBounds 0 0 ∧ isSameColor (tallPair.At 0 0) (keyColor tallPair) = true ∧
    calculateColor insertionSortSlice 1 tallPair (keyColor tallPair) 0 0 = some (grey 4660) ∧
    ∃ out, corrected insertionSortSlice 1 tallPair (keyColor tallPair) = some out ∧
      out.At 0 0 = grey 4626 ∧ out.At 0 0 ≠ grey 4660 := by
  refine ⟨by decide, by decide, by decide, ?_⟩
  obtain ⟨out, hout⟩ := Option.isSome_iff_exists.mp
    (show (corrected insertionSortSlice 1 tallPair (keyColor tallPair)).isSome = true by decide)
  have hat : (corrected insertionSortSlice 1 tallPair (keyColor tallPair)).map
      (fun o => o.At 0 0) = some (grey 4626) := by decide
  rw [hout] at hat
  have hat' : out.At 0 0 = grey 4626 := Option.some.inj hat
  refine ⟨out, hout, hat', ?_⟩
  rw [hat']
  decide

/-- C11, amended: when `corrected` returns, the output has the bounding rectangle of the
input; for every in-bounds defective pixel the colour handed to `dst.Set` is `calculateColor`
on the input grid and the output stores its 8-bit RGBA conversion; every in-bounds output
pixel is the conversion of a colour computed from the input grid and the key alone, pixels
outside the bounds are never written, and the whole output does not depend on the fuel of
the search. -/
theorem corrected_reads_input_only (sortSlice : List Color → List Color) (fuel : Nat)
    (img : Image) (key : Color) (out : Image)
    (h : corrected sortSlice fuel img key = some out) :
    (out.minX = img.minX ∧ out.minY = img.minY ∧ out.maxX = img.maxX ∧ out.maxY = img.maxY) ∧
    (∀ x y : Int, img.inBounds x y → isSameColor (img.At x y) key = true →
      ∃ c, calculateColor sortSlice fuel img key x y = some c ∧ out.At x y = rgbaModel c) ∧
    (∀ x y : Int, img.inBounds x y →
      ∃ c, pixelColor sortSlice fuel img key x y = some c ∧ out.At x y = rgbaModel c) ∧
    (∀ x y : Int, ¬ img.inBounds x y → out.At x y = transparent) ∧
    (∀ (fuel' : Nat) (out' : Image), corrected sortSlice fuel' img key = some out' →
      out' = out) := by
  obtain ⟨hb, hin, hout⟩ := corrected_sound _ _ _ _ _ h
  refine ⟨hb, ?_, hin, hout, ?_⟩
  · intro x y hxy hs
    obtain ⟨c, hc, hat⟩ := hin x y hxy
    refine ⟨c, ?_, hat⟩
    unfold pixelColor at hc
    simpa [hs] using hc
  · intro fuel' out' h'
    exact corrected_fuel_irrelevant sortSlice fuel fuel' img key out out' h h'

/-- C11, amended, on the 8-bit image `bytePair`: the output has the bounds of the input and
its pixel `(0, 0)` holds the value `calculateColor` has on the input. -/
theorem corrected_reads_input_only_witness :
    ∃ out, corrected insertionSortSlice 1 bytePair (keyColor bytePair) = some out ∧
      (out.minX = 0 ∧ out.minY = 0 ∧ out.maxX = 1 ∧ out.maxY = 2) ∧
      calculateColor insertionSortSlice 1 bytePair (keyColor bytePair) 0 0 = some (grey 514) ∧
      out.At 0 0 = grey 514 := by
  obtain ⟨out, hout⟩ := Option.isSome_iff_exists.mp
    (show (corrected insertionSortSlice 1 bytePair (keyColor bytePair)).isSome = true
      by decide)
  have h := corrected_reads_input_only insertionSortSlice 1 bytePair (keyColor bytePair) out
    hout
  obtain ⟨c, hc, hat⟩ := h.2.1 0 0 (by decide) (by decide)
  have hcalc : calculateColor insertionSortSlice 1 bytePair (keyColor bytePair) 0 0 =
      some (grey 514) := by decide
  have hc' : c = grey 514 := Option.some.inj (hc.symm.trans hcalc)
  subst hc'
  exact ⟨out, hout, h.1, hcalc, hat.trans (by decide)⟩

/-- C17, as stated, fails on a 16-bit image: in `tallPair`, with the key taken from `(0, 0)`,
the repair completes and the output colour at `(0, 0)` is the same colour as the input colour
at `(0, 0)`. -/
theorem origin_pixel_keeps_its_colour :
    tallPair.inBounds 0 0 ∧
    ∃ out, corrected insertionSortSlice 1 tallPair (keyColor tallPair) = some out ∧
      isSameColor (out.At 0 0) (tallPair.At 0 0) = true := by
  refine ⟨by decide, ?_⟩
  obtain ⟨out, hout⟩ := Option.isSome_iff_exists.mp
    (show (corrected insertionSortSlice 1 tallPair (keyColor tallPair)).isSome = true by decide)
  have hat : (corrected insertionSortSlice 1 tallPair (keyColor tallPair)).map
      (fun o => isSameColor (o.At 0 0) (tallPair.At 0 0)) = some true := by decide
  rw [hout] at hat
  exact ⟨out, hout, Option.some.inj hat⟩

/-- C17, amended: with the key taken from `(0, 0)`, the pixel `(0, 0)` is always defective
and `corrected` asks `calculateColor` for its colour instead of copying it; under the contract
of `sort.Slice`, whenever the repair completes on a grid containing `(0, 0)`, the colour
handed to the output at `(0, 0)` is not the input colour at `(0, 0)`, the output stores its
8-bit RGBA conversion, and the stored colour is not the input colour at `(0, 0)` either
whenever the replacement colour is 8-bit. -/
theorem origin_pixel_always_replaced (sortSlice : List Color → List Color)
    (hsort : SliceSortContract sortSlice) (fuel : Nat) (img : Image) (out : Image)
    (hb : img.inBounds 0 0) (h : corrected sortSlice fuel img (keyColor img) = some out) :
    isSameColor (img.At 0 0) (keyColor img) = true ∧
    pixelColor sortSlice fuel img (keyColor img) 0 0 =
      calculateColor sortSlice fuel img (keyColor img) 0 0 ∧
    ∃ c, calculateColor sortSlice fuel img (keyColor img) 0 0 = some c ∧
      isSameColor c (img.At 0 0) = false ∧ out.At 0 0 = rgbaModel c ∧
      (c.eightBit → isSameColor (out.At 0 0) (img.At 0 0) = false) := by
  have hs : isSameColor (img.At 0 0) (keyColor img) = true := by
    unfold keyColor isSameColor
    simp
  have hp : pixelColor sortSlice fuel img (keyColor img) 0 0 =
      calculateColor sortSlice fuel img (keyColor img) 0 0 := by
    unfold pixelColor
    simp [hs]
  refine ⟨hs, hp, ?_⟩
  obtain ⟨_, hin, _⟩ := corrected_sound _ _ _ _ _ h
  obtain ⟨c, hc, hat⟩ := hin 0 0 hb
  rw [hp] at hc
  have hnk : isSameColor c (img.At 0 0) = false :=
    calculateColor_not_key sortSlice hsort fuel img (keyColor img) 0 0 c hc
  refine ⟨c, hc, hnk, hat, ?_⟩
  intro h8
  rw [hat, (rgbaModel_eq_self_iff c).mpr h8]
  exact hnk

/-- C17, amended, on the 8-bit image `bytePair`: the repair completes and the pixel `(0, 0)`
comes out with the colour of `(0, 1)`, not its own. -/
theorem origin_pixel_always_replaced_witness :
    ∃ out, corrected insertionSortSlice 1 bytePair (keyColor bytePair) = some out ∧
      isSameColor (bytePair.At 0 0) (keyColor bytePair) = true ∧
      out.At 0 0 = grey 514 ∧ isSameColor (out.At 0 0) (bytePair.At 0 0) = false := by
  obtain ⟨out, hout⟩ := Option.isSome_iff_exists.mp
    (show (corrected insertionSortSlice 1 bytePair (keyColor bytePair)).isSome = true
      by decide)
  have h := origin_pixel_always_replaced insertionSortSlice insertionSortSlice_contract 1
    bytePair out (by decide) hout
  obtain ⟨c, hc, _, hat, h8⟩ := h.2.2
  have hc' : c = grey 514 := Option.some.inj (hc.symm.trans
    (show calculateColor insertionSortSlice 1 bytePair (keyColor bytePair) 0 0 =
      some (grey 514) by decide))
  subst hc'
  exact ⟨out, hout, h.1, hat.trans (by decide), h8 (by decide)⟩

/-! ## Repairing a repaired image: theorems -/

theorem rgbaModel_idem (c : Color) : rgbaModel (rgbaModel c) = rgbaModel c := by
  apply (rgbaModel_eq_self_iff _).mpr
  have hch : ∀ v : Nat, (v / 256 % 256 * 257) % 257 = 0 ∧ v / 256 % 256 * 257 ≤ 65535 := by
    intro v
    have hk : v / 256 % 256 < 256 := Nat.mod_lt _ (by decide)
    exact ⟨Nat.mul_mod_left _ _, by omega⟩
  exact ⟨hch c.r, hch c.g, hch c.b, hch c.a⟩

/-- A colour returned by `calculateColor` is stored at some in-bounds pixel of the input. -/
theorem calculateColor_from_image (sortSlice : List Color → List Color)
    (hsort : SliceSortContract sortSlice) (fuel : Nat) (img : Image) (key : Color) (x y : Int)
    (c : Color) (h : calculateColor sortSlice fuel img key x y = some c) :
    ∃ px py : Int, img.inBounds px py ∧ img.At px py = c := by
  unfold calculateColor at h
  cases hloop : ringLoop img key x y fuel 1 [] with
  | none => rw [hloop] at h; cases h
  | some colors =>
    rw [hloop] at h
    change pickMedian sortSlice colors = some c at h
    obtain ⟨k, _, _, hcs, hne⟩ := ringLoop_sound _ _ _ _ _ _ _ hloop
    obtain ⟨c', hc', hmem, _⟩ := pickMedian_spec sortSlice hsort colors hne
    rw [hc'] at h
    cases h
    rw [← hcs] at hmem
    obtain ⟨px, py, _, hb, _, hat⟩ := (mem_ringColors _ _ _ _ _ _).mp hmem
    exact ⟨px, py, hb, hat⟩

/-- On an image without a key-coloured pixel `corrected` returns the converted image, whatever
the fuel. -/
theorem corrected_of_no_key (sortSlice : List Color → List Color) (fuel : Nat) (img : Image)
    (key : Color)
    (hclean : ∀ x y : Int, img.inBounds x y → isSameColor (img.At x y) key = false) :
    ∃ out, corrected sortSlice fuel img key = some out ∧ out.sameBounds img ∧
      (∀ x y : Int, img.inBounds x y → out.At x y = rgbaModel (img.At x y)) ∧
      (∀ x y : Int, ¬ img.inBounds x y → out.At x y = transparent) := by
  have hp : ∀ x y : Int, img.inBounds x y →
      pixelColor sortSlice fuel img key x y = some (img.At x y) := by
    intro x y hb
    unfold pixelColor
    simp [hclean x y hb]
  obtain ⟨out, hout⟩ := corrected_total sortSlice fuel img key
    (fun x y hb => ⟨_, hp x y hb⟩)
  obtain ⟨hb, hin, hoob⟩ := corrected_sound _ _ _ _ _ hout
  refine ⟨out, hout, hb, ?_, hoob⟩
  intro x y hxy
  obtain ⟨c, hc, hat⟩ := hin x y hxy
  rw [hp x y hxy] at hc
  cases hc
  exact hat

/-- C18, as stated, fails on a 16-bit image: on `tallPair` the repair completes, but both
pixels of its output are the key colour, and `corrected` applied to that output never
returns. -/
theorem corrected_twice_never_returns :
    ∃ out, corrected insertionSortSlice 1 tallPair (keyColor tallPair) = some out ∧
      out.At 0 0 = grey 4626 ∧ out.At 0 1 = grey 4626 ∧ keyColor tallPair = grey 4626 ∧
      ∀ fuel : Nat, corrected insertionSortSlice fuel out (keyColor tallPair) = none := by
  obtain ⟨out, hout⟩ := Option.isSome_iff_exists.mp
    (show (corrected insertionSortSlice 1 tallPair (keyColor tallPair)).isSome = true by decide)
  have hat : (corrected insertionSortSlice 1 tallPair (keyColor tallPair)).map
      (fun o => (o.At 0 0, o.At 0 1)) = some (grey 4626, grey 4626) := by decide
  rw [hout] at hat
  have hpair : (out.At 0 0, out.At 0 1) = (grey 4626, grey 4626) := Option.some.inj hat
  have h0 : out.At 0 0 = grey 4626 := congrArg Prod.fst hpair
  have h1 : out.At 0 1 = grey 4626 := congrArg Prod.snd hpair
  obtain ⟨hb, _, _⟩ := corrected_sound _ _ _ _ _ hout
  have hbounds : ∀ x y : Int, out.inBounds x y → x = 0 ∧ (y = 0 ∨ y = 1) := by
    intro x y hxy
    unfold Image.sameBounds at hb
    unfold Image.inBounds at hxy
    simp only [tallPair] at hb
    omega
  have hall : ∀ x y : Int, out.inBounds x y →
      isSameColor (out.At x y) (keyColor tallPair) = true := by
    intro x y hxy
    obtain ⟨rfl, rfl | rfl⟩ := hbounds x y hxy
    · rw [h0]; decide
    · rw [h1]; decide
  have hin0 : out.inBounds 0 0 := by
    unfold Image.sameBounds at hb
    unfold Image.inBounds
    simp only [tallPair] at hb
    omega
  refine ⟨out, hout, h0, h1, by decide, ?_⟩
  intro fuel
  exact corrected_none_of_stuck _ _ _ _ 0 0 hin0 (hall 0 0 hin0)
    (calculateColor_none_of_rings_empty _ _ _ _ _ _
      (fun r _ => rings_empty_of_all_key out _ hall 0 0 r))

/-- C18, amended: with the key held fixed, if `corrected` completes on a grid and no pixel of
its output is the key colour, then `corrected` applied to the output returns the output
unchanged, whatever the fuel; under the contract of `sort.Slice` no pixel of the output is the
key colour whenever every colour of the input grid is 8-bit. -/
theorem corrected_idempotent_when_clean (sortSlice : List Color → List Color)
    (fuel fuel' : Nat) (img : Image) (key : Color) (out : Image)
    (h : corrected sortSlice fuel img key = some out) :
    ((∀ x y : Int, out.inBounds x y → isSameColor (out.At x y) key = false) →
      corrected sortSlice fuel' out key = some out) ∧
    (SliceSortContract sortSlice →
      (∀ x y : Int, img.inBounds x y → (img.At x y).eightBit) →
      ∀ x y : Int, out.inBounds x y → isSameColor (out.At x y) key = false) := by
  obtain ⟨hb, hin, hoob⟩ := corrected_sound _ _ _ _ _ h
  have hiff : ∀ x y : Int, out.inBounds x y ↔ img.inBounds x y := by
    intro x y
    unfold Image.sameBounds at hb
    unfold Image.inBounds
    omega
  refine ⟨?_, ?_⟩
  · intro hclean
    obtain ⟨out2, hout2, hb2, hin2, hoob2⟩ := corrected_of_no_key sortSlice fuel' out key hclean
    have heq : out2 = out := by
      apply Image.eq_of_At _ _ hb2
      intro x y
      by_cases hxy : out.inBounds x y
      · obtain ⟨c, _, hat⟩ := hin x y ((hiff x y).mp hxy)
        rw [hin2 x y hxy, hat, rgbaModel_idem]
      · rw [hoob2 x y hxy, hoob x y (fun hi => hxy ((hiff x y).mpr hi))]
    rw [hout2, heq]
  · intro hsort h8 x y hxy
    have hxy' := (hiff x y).mp hxy
    obtain ⟨c, hc, hat⟩ := hin x y hxy'
    unfold pixelColor at hc
    cases hs : isSameColor (img.At x y) key with
    | false =>
      simp only [hs, Bool.false_eq_true, if_false, Option.some.injEq] at hc
      subst hc
      rw [hat, (rgbaModel_eq_self_iff _).mpr (h8 x y hxy')]
      exact hs
    | true =>
      simp only [hs, if_true] at hc
      obtain ⟨px, py, hp, hpat⟩ := calculateColor_from_image sortSlice hsort fuel img key x y c hc
      have hc8 : c.eightBit := hpat ▸ h8 px py hp
      rw [hat, (rgbaModel_eq_self_iff c).mpr hc8]
      exact calculateColor_not_key sortSlice hsort fuel img key x y c hc

/-- C18, amended, on the 8-bit image `bytePair`: the repair completes, its output has no
key-coloured pixel, and repairing the output again returns it unchanged. -/
theorem corrected_idempotent_when_clean_witness :
    ∃ out, corrected insertionSortSlice 1 bytePair (keyColor bytePair) = some out ∧
      (∀ x y : Int, out.inBounds x y → isSameColor (out.At x y) (keyColor bytePair) = false) ∧
      corrected insertionSortSlice 5 out (keyColor bytePair) = some out := by
  obtain ⟨out, hout⟩ := Option.isSome_iff_exists.mp
    (show (corrected insertionSortSlice 1 bytePair (keyColor bytePair)).isSome = true
      by decide)
  have h := corrected_idempotent_when_clean insertionSortSlice 1 5 bytePair
    (keyColor bytePair) out hout
  have h8 : ∀ x y : Int, bytePair.inBounds x y → (bytePair.At x y).eightBit := by
    intro x y _
    unfold bytePair
    by_cases hy : y = 1
    · simp only [hy, if_true]; decide
    · simp only [hy, if_false]; decide
  have hclean := h.2 insertionSortSlice_contract h8
  exact ⟨out, hout, hclean, h.1 hclean⟩

end CleanUp
